import Mathlib

/-!
Verification development for `decimate.py` (batch decimate / rename / measure
STL files via a Blender host).

The Python source is shallowly embedded as follows.

* Path strings are Lean `String`s; the `os.path` (posixpath) functions used by
  the script — `join`, `dirname`, `splitext`, `relpath` — are re-implemented
  character-faithfully on `List Char` with separator `'/'`.  `relpath` is
  modelled without the initial `abspath` normalisation step: the script only
  ever calls it on a path built by `os.path.join` from the very directory it
  is made relative to, so both arguments are already of the same kind and the
  normalisation is the identity there.
* Real numbers (mesh coordinates, resize factors) are modelled as `ℚ`.
* The filesystem seen by `os.listdir` / `os.walk` is an explicit tree of
  entries; a file entry carries `Option (List Vec3)`: the mesh Blender's STL
  importer would produce for it, `none` meaning the import yields no mesh
  content (corrupt or empty file, or the path is not an importable file).
* Blender itself is the `Host` record: its decimate operator and numpy's
  floating-point `np.linalg.eigh` are opaque numeric routines, passed in as
  functions.  `bpy.ops.transform.resize` in object mode multiplies the
  object's world transform by a uniform scale and leaves the local vertex
  coordinates (`v.co`) untouched; `bpy.ops.object.convert` bakes pending
  modifiers into the local coordinates and keeps the object transform.  A
  `SceneObj` therefore holds local vertices plus a uniform world scale.
* Writes are modelled as values: the list of exported/copied output files,
  the list of strings printed to stdout, and the optional dimension report
  (path and full contents; the script opens the report with mode `w`, i.e. a
  single overwriting write after the traversal).
-/

/-! ## Characters and posixpath operations -/

abbrev Chars := List Char

def isSlash (c : Char) : Bool := c = '/'

/-- Split a character list at every `'/'`, keeping empty pieces (the exact
splitting used when reasoning about posixpath strings). -/
def splitSlash : Chars → List Chars
  | [] => [[]]
  | c :: cs =>
    if isSlash c then [] :: splitSlash cs
    else
      match splitSlash cs with
      | [] => [[c]]
      | p :: ps => (c :: p) :: ps

/-- The nonempty `'/'`-separated components of a path. -/
def componentsCh (l : Chars) : List Chars := (splitSlash l).filter (fun p => p ≠ [])

/-- `posixpath.join` for two arguments. -/
def ospJoinCh (a b : Chars) : Chars :=
  if b.head? = some '/' then b
  else if a = [] ∨ a.getLast? = some '/' then a ++ b
  else a ++ '/' :: b

/-- `posixpath.dirname`: everything up to the final `'/'`, with trailing
slashes stripped unless the head consists only of slashes. -/
def dirnameCh (p : Chars) : Chars :=
  let head := (p.reverse.dropWhile (fun c => !isSlash c)).reverse
  if head = [] ∨ head.all isSlash then head
  else (head.reverse.dropWhile isSlash).reverse

/-- `posixpath.splitext`: split off the extension at the last dot of the
final component, unless that component consists only of leading dots up to
this dot. -/
def splitextCh (p : Chars) : Chars × Chars :=
  let revAll := p.reverse
  let revBase := revAll.takeWhile (fun c => !isSlash c)
  let base := revBase.reverse
  let head := p.take (p.length - base.length)
  let afterDot := revBase.takeWhile (fun c => c ≠ '.')
  if afterDot.length = base.length then (p, [])
  else
    let stem := base.take (base.length - afterDot.length - 1)
    if stem.all (fun c => c = '.') then (p, [])
    else (head ++ stem, '.' :: afterDot.reverse)

/-- Length of the longest common prefix of two component lists
(`os.path.commonprefix` on lists compares elementwise). -/
def commonLen : List Chars → List Chars → Nat
  | a :: as, b :: bs => if a = b then commonLen as bs + 1 else 0
  | _, _ => 0

/-- Join path components with `'/'` (what `posixpath.join(*parts)` does to
relative, slash-free components). -/
def joinCompsCh (ps : List Chars) : Chars := List.intercalate ['/'] ps

/-- `posixpath.relpath path start`, modelled for arguments of the same kind
(see the module docstring): filter the nonempty components of both, drop the
common prefix, prepend one `..` per remaining component of `start`. -/
def relpathCh (path start : Chars) : Chars :=
  let pl := componentsCh path
  let sl := componentsCh start
  let i := commonLen sl pl
  let rel := List.replicate (sl.length - i) ['.', '.'] ++ pl.drop i
  if rel = [] then ['.'] else joinCompsCh rel

def ospJoin (a b : String) : String := ⟨ospJoinCh a.data b.data⟩

def dirnameStr (p : String) : String := ⟨dirnameCh p.data⟩

def splitextStr (p : String) : String × String :=
  (⟨(splitextCh p.data).1⟩, ⟨(splitextCh p.data).2⟩)

def relpathStr (path start : String) : String := ⟨relpathCh path.data start.data⟩

def componentsStr (s : String) : List String := (componentsCh s.data).map (fun l => ⟨l⟩)

def joinComponentsStr (ps : List String) : String := ⟨joinCompsCh (ps.map String.data)⟩

/-- Python's `str.endswith`. -/
def pyEndswith (s suf : String) : Bool := suf.data.isSuffixOf s.data

/-! ## Numbers, vertices and report formatting -/

/-- A 3-component real-valued coordinate (reals as `ℚ`). -/
structure Vec3 where
  x : ℚ
  y : ℚ
  z : ℚ
deriving DecidableEq, Repr

def nthV (v : Vec3) : Fin 3 → ℚ := fun i => if i = 0 then v.x else if i = 1 then v.y else v.z

def sum3 (f : Fin 3 → ℚ) : ℚ := f 0 + f 1 + f 2

/-- `numpy`'s max over a nonempty 1-d array (the script never reaches the
empty case: every call sits behind a successful import). -/
def npMaxQ : List ℚ → ℚ
  | [] => 0
  | x :: xs => xs.foldl max x

def npMinQ : List ℚ → ℚ
  | [] => 0
  | x :: xs => xs.foldl min x

/-- Round a rational to the nearest integer, ties to even — the rounding CPython
uses for `f"{x:.3f}"` on exactly representable values. -/
def roundHalfToEven (q : ℚ) : ℤ :=
  let f := ⌊q⌋
  if q - f < 1/2 then f
  else if (1 : ℚ)/2 < q - f then f + 1
  else if f % 2 = 0 then f else f + 1

def padThree (m : ℕ) : String :=
  if m < 10 then "00" ++ toString m else if m < 100 then "0" ++ toString m else toString m

/-- Python's `f"{q:.3f}"`: three decimal places. -/
def formatFixed3 (q : ℚ) : String :=
  let n := roundHalfToEven (q * 1000)
  let sgn := if n < 0 then "-" else ""
  let m := n.natAbs
  sgn ++ toString (m / 1000) ++ "." ++ padThree (m % 1000)

/-- The f-string of decimate.py line 110/153:
`f"{filename}: {d[0]:.3f}, {d[1]:.3f}, {d[2]:.3f}"`. -/
def formatDimensionLine (filename : String) (d : Vec3) : String :=
  filename ++ ": " ++ formatFixed3 d.x ++ ", " ++ formatFixed3 d.y ++ ", " ++ formatFixed3 d.z

/-! ## Scene objects and the two bounding-box algorithms -/

/-- The Blender object the script manipulates: local mesh vertices
(`obj.data.vertices[i].co`) plus the uniform world scale accumulated by
`bpy.ops.transform.resize` (STL import starts at scale 1). -/
structure SceneObj where
  verts : List Vec3
  scale : ℚ
deriving DecidableEq, Repr

/-- `obj.matrix_world @ v.co` for every vertex. -/
def worldVerts (o : SceneObj) : List Vec3 :=
  o.verts.map (fun v => ⟨o.scale * v.x, o.scale * v.y, o.scale * v.z⟩)

/-- The type of `np.linalg.eigh` as the script uses it: a symmetric 3×3 matrix
in, eigenvalues (ascending in numpy, but the script sorts anyway) and a matrix
whose columns are eigenvectors out.  An opaque floating-point routine,
modelled as a parameter of the run. -/
def EigFn := (Fin 3 → Fin 3 → ℚ) → (Fin 3 → ℚ) × (Fin 3 → Fin 3 → ℚ)

/-- `np.cov(verts.T)` with the default `ddof=1`: entry `(i,j)` is
`Σ (vᵢ - μᵢ)(vⱼ - μⱼ) / (n - 1)` (with a single point numpy produces NaN;
here division by zero yields 0 — that case feeds only the opaque `eig`). -/
def covMatrixQ (pts : List Vec3) : Fin 3 → Fin 3 → ℚ := fun i j =>
  let n : ℚ := pts.length
  let mi := (pts.map (fun p => nthV p i)).sum / n
  let mj := (pts.map (fun p => nthV p j)).sum / n
  (pts.map (fun p => (nthV p i - mi) * (nthV p j - mj))).sum / (n - 1)

def insertByKey (f : Fin 3 → ℚ) (i : Fin 3) : List (Fin 3) → List (Fin 3)
  | [] => [i]
  | j :: js => if f i < f j then i :: j :: js else j :: insertByKey f i js

/-- `eigvals.argsort()[::-1]`: indices sorted ascending by key, then
reversed.  Tie order is unspecified in numpy's quicksort; any fixed
deterministic choice is a faithful model. -/
def argsortDesc (f : Fin 3 → ℚ) : List (Fin 3) :=
  (([0, 1, 2] : List (Fin 3)).foldr (insertByKey f) []).reverse

/-- decimate.py lines 38–60: PCA oriented bounding box.  World-space
vertices, covariance matrix, eigendecomposition, eigenvectors reordered by
descending eigenvalue, vertices projected onto that basis (`verts @ eigvecs`),
per-axis max − min in the rotated frame. -/
def get_oriented_bounding_box (eig : EigFn) (obj : SceneObj) : Vec3 :=
  let verts := worldVerts obj
  let cov := covMatrixQ verts
  let ev := eig cov
  let order := argsortDesc ev.1
  let orderAt : Fin 3 → Fin 3 := fun j => order.getD j.val 0
  let vecs : Fin 3 → Fin 3 → ℚ := fun k j => ev.2 k (orderAt j)
  let rotated : List (Fin 3 → ℚ) := verts.map (fun p => fun j => sum3 (fun k => nthV p k * vecs k j))
  let mins : Fin 3 → ℚ := fun j => npMinQ (rotated.map (fun r => r j))
  let maxs : Fin 3 → ℚ := fun j => npMaxQ (rotated.map (fun r => r j))
  ⟨maxs 0 - mins 0, maxs 1 - mins 1, maxs 2 - mins 2⟩

/-- decimate.py lines 63–66: per-axis max − min over the local-space vertex
coordinates (`v.co`; the object's world transform is not consulted). -/
def get_axis_aligned_bounding_box (obj : SceneObj) : Vec3 :=
  ⟨npMaxQ (obj.verts.map Vec3.x) - npMinQ (obj.verts.map Vec3.x),
   npMaxQ (obj.verts.map Vec3.y) - npMinQ (obj.verts.map Vec3.y),
   npMaxQ (obj.verts.map Vec3.z) - npMinQ (obj.verts.map Vec3.z)⟩

/-- The post-hoc scaling of line 108/151:
`get_axis_aligned_bounding_box(obj) * (resize_factor if resize_factor is not None else 1)`. -/
def postScale (d : Vec3) (resize_factor : Option ℚ) : Vec3 :=
  let f : ℚ := match resize_factor with | some s => s | none => 1
  ⟨d.x * f, d.y * f, d.z * f⟩

/-- Lines 104–108 / 147–151: dimension-method dispatch.  The string compared
against is `"obb"`; anything else falls to the axis-aligned branch. -/
def chooseDimensions (eig : EigFn) (dimension_method : String) (resize_factor : Option ℚ)
    (obj : SceneObj) : Vec3 :=
  if dimension_method = "obb" then get_oriented_bounding_box eig obj
  else postScale (get_axis_aligned_bounding_box obj) resize_factor

/-! ## The filesystem tree, `os.listdir` and `os.walk` -/

/-- A directory entry.  A file carries the mesh its import would yield
(`none`: no mesh content). -/
inductive Entry where
  | file (name : String) (content : Option (List Vec3))
  | dir (name : String) (children : List Entry)

def Entry.entryName : Entry → String
  | .file n _ => n
  | .dir n _ => n

def Entry.isDirB : Entry → Bool
  | .file _ _ => false
  | .dir _ _ => true

/-- `os.listdir`: the names of all direct entries, files and directories
alike, in directory order. -/
def listdirNames (es : List Entry) : List String := es.map Entry.entryName

/-- The direct child files with their contents, in directory order. -/
def fileEntries (es : List Entry) : List (String × Option (List Vec3)) :=
  es.filterMap (fun e => match e with
    | .file n c => some (n, c)
    | .dir _ _ => none)

/-- What `bpy.ops.import_mesh.stl` yields for the direct entry called `n`:
the file's mesh, or no mesh content if there is no such file. -/
def lookupEntryContent (es : List Entry) (n : String) : Option (List Vec3) :=
  match es.find? (fun e => e.entryName == n) with
  | some (.file _ c) => c
  | _ => none

/-- One candidate produced by the traversal: the directory path `root` the
file was found in, its `filename`, and what importing it yields. -/
structure Discovered where
  root : String
  filename : String
  content : Option (List Vec3)
deriving DecidableEq, Repr

/-- Lines 117–122: `[f for f in os.listdir(input_directory) if f.endswith(".stl")]`,
each processed against `input_directory` itself. -/
def discoverFlat (input_directory : String) (es : List Entry) : List Discovered :=
  ((listdirNames es).filter (fun n => pyEndswith n ".stl")).map
    (fun n => ⟨input_directory, n, lookupEntryContent es n⟩)

/-- The `.stl`-named files of one directory (the inner
`for filename in files: if filename.endswith(".stl")` of the walk). -/
def stlFilesHere (top : String) (es : List Entry) : List Discovered :=
  ((fileEntries es).filter (fun p => pyEndswith p.1 ".stl")).map
    (fun p => ⟨top, p.1, p.2⟩)

mutual
/-- `os.walk` descent into one entry (directories only; `os.walk` reports
plain files in their parent's `files` list). -/
def walkEntryD : Entry → String → List Discovered
  | .file _ _, _ => []
  | .dir n sub, top =>
    stlFilesHere (ospJoin top n) sub ++ walkSubdirsD sub (ospJoin top n)
/-- `os.walk` descent into the subdirectories of a directory, in order. -/
def walkSubdirsD : List Entry → String → List Discovered
  | [], _ => []
  | e :: rest, top => walkEntryD e top ++ walkSubdirsD rest top
end

/-- Lines 73–76: the `.stl` files produced by
`for root, dirs, files in os.walk(input_directory)` in top-down order. -/
def discoverWalk (input_directory : String) (es : List Entry) : List Discovered :=
  stlFilesHere input_directory es ++ walkSubdirsD es input_directory

/-! ## Configuration, host, and the run -/

/-- The arguments of `process_and_write_dimensions` (decimate.py line 69). -/
structure Config where
  input_directory : String
  output_directory : String
  decimation_ratio : Option ℚ
  resize_factor : Option ℚ
  prepend_str : Option String
  append_str : Option String
  recursive : Bool
  dimensions_flag : Bool
  dimension_method : String

/-- The opaque numeric collaborators: Blender's decimate operator and
numpy's `eigh`. -/
structure Host where
  decimate : ℚ → List Vec3 → List Vec3
  eig : EigFn

/-- Lines 96–102 / 19–29: add a decimate modifier when a ratio is given,
`bpy.ops.transform.resize` when a factor is given, then
`bpy.ops.object.convert(target='MESH')` bakes the modifier into the local
coordinates while the object transform keeps the scale. -/
def applyModifications (host : Host) (verts : List Vec3)
    (decimation_ratio resize_factor : Option ℚ) : SceneObj :=
  let v := match decimation_ratio with
    | some r => host.decimate r verts
    | none => verts
  let s : ℚ := match resize_factor with
    | some f => f
    | none => 1
  ⟨v, s⟩

/-- A file materialised under the output root: a byte-for-byte copy
(`shutil.copy`, identified here by the source mesh) or an STL export of the
processed object (STL exports carry world-space geometry). -/
inductive OutFile where
  | copied (verts : List Vec3)
  | exported (verts : List Vec3)
deriving DecidableEq, Repr

/-- decimate.py lines 9–35, `process_stl`: clear the scene, re-import the
input; on success apply modifiers and export to `output_path`; otherwise
print the skip diagnostic.  Returns (files written, lines printed). -/
def process_stl (host : Host) (content : Option (List Vec3))
    (input_path output_path : String)
    (decimation_ratio resize_factor : Option ℚ) : List (String × OutFile) × List String :=
  match content with
  | some verts =>
    let obj := applyModifications host verts decimation_ratio resize_factor
    ([(output_path, OutFile.exported (worldVerts obj))], [])
  | none => ([], ["Skipping " ++ input_path ++ ": No valid mesh data found."])

/-- Lines 81–86 / 124–129: the renamed final filename component,
`(prepend_str + base if prepend) (+ append_str if append) + ext`. -/
def newBaseFileName (prepend_str append_str : Option String) (filename : String) : String :=
  let se := splitextStr filename
  let base0 := match prepend_str with
    | some p => p ++ se.1
    | none => se.1
  let base1 := match append_str with
    | some a => base0 ++ a
    | none => base0
  base1 ++ se.2

/-- Lines 77–79 / 120–122: the pre-rename candidate
`os.path.join(output_directory, os.path.relpath(input_path, input_directory))`. -/
def plannedCandidatePath (cfg : Config) (root filename : String) : String :=
  let input_path := ospJoin root filename
  let relative_path := relpathStr input_path cfg.input_directory
  ospJoin cfg.output_directory relative_path

/-- Lines 81–86 / 124–129: `new_output_path`, the candidate's directory plus
the renamed filename. -/
def plannedOutputPath (cfg : Config) (root filename : String) : String :=
  ospJoin (dirnameStr (plannedCandidatePath cfg root filename))
    (newBaseFileName cfg.prepend_str cfg.append_str filename)

/-- The in-flight effects of the loop: files written so far, stdout lines so
far, and the `dimension_lines` list. -/
structure RunState where
  outputs : List (String × OutFile)
  printed : List String
  dimension_lines : List String
deriving DecidableEq, Repr

/-- The loop body, lines 88–115 / 131–158, for one discovered file.  Note the
`if bpy.context.selected_objects:` has no `else`: a file whose import yields
no mesh leaves the state untouched — nothing is printed for it. -/
def processOneFile (host : Host) (cfg : Config) (st : RunState) (d : Discovered) : RunState :=
  let input_path := ospJoin d.root d.filename
  let new_output_path := plannedOutputPath cfg d.root d.filename
  let use_blender := cfg.decimation_ratio.isSome || cfg.resize_factor.isSome
  match d.content with
  | none => st
  | some verts =>
    let obj := if use_blender
      then applyModifications host verts cfg.decimation_ratio cfg.resize_factor
      else ⟨verts, 1⟩
    let dims := chooseDimensions host.eig cfg.dimension_method cfg.resize_factor obj
    let line := formatDimensionLine d.filename dims
    if use_blender then
      let pr := process_stl host (some verts) input_path new_output_path
        cfg.decimation_ratio cfg.resize_factor
      ⟨st.outputs ++ pr.1, st.printed ++ pr.2, st.dimension_lines ++ [line]⟩
    else
      ⟨st.outputs ++ [(new_output_path, OutFile.copied verts)], st.printed,
        st.dimension_lines ++ [line]⟩

/-- Line 73 / 117: which traversal the run uses. -/
def discoverFiles (cfg : Config) (tree : List Entry) : List Discovered :=
  if cfg.recursive then discoverWalk cfg.input_directory tree
  else discoverFlat cfg.input_directory tree

def finalRunState (host : Host) (cfg : Config) (tree : List Entry) : RunState :=
  (discoverFiles cfg tree).foldl (processOneFile host cfg) ⟨[], [], []⟩

/-- The result of a whole run: everything written and printed. -/
structure RunResult where
  outputs : List (String × OutFile)
  printed : List String
  report : Option (String × String)
deriving DecidableEq, Repr

/-- decimate.py lines 69–165, `process_and_write_dimensions`: traverse,
process each file, and afterwards — only if the flag is set and at least one
line accumulated (Python truthiness of the list) — write the newline-joined
lines to `<output_directory>/dimensions.txt` in a single overwriting
write. -/
def process_and_write_dimensions (host : Host) (cfg : Config) (tree : List Entry) : RunResult :=
  let st := finalRunState host cfg tree
  let report :=
    if cfg.dimensions_flag && !st.dimension_lines.isEmpty then
      some (ospJoin cfg.output_directory "dimensions.txt",
        String.intercalate "\n" st.dimension_lines)
    else none
  ⟨st.outputs, st.printed ++ ["Done."], report⟩

/-- The `dimension_lines` list as it stands after the traversal. -/
def accumulatedLines (host : Host) (cfg : Config) (tree : List Entry) : List String :=
  (finalRunState host cfg tree).dimension_lines

/-- Line 178: `choices=["obb", "axis-aligned"]` of `--dimension-method`. -/
def dimensionMethodChoices : List String := ["obb", "axis-aligned"]

/-- Line 178: `default="axis-aligned"`. -/
def dimensionMethodDefault : String := "axis-aligned"

/-- argparse's validation of `--dimension-method`: values outside `choices`
are rejected. -/
def parseDimensionMethod (s : String) : Option String :=
  if dimensionMethodChoices.contains s then some s else none

def setDimensionsFlag (cfg : Config) (b : Bool) : Config :=
  ⟨cfg.input_directory, cfg.output_directory, cfg.decimation_ratio, cfg.resize_factor,
   cfg.prepend_str, cfg.append_str, cfg.recursive, b, cfg.dimension_method⟩

/-! ## Specification-side descriptions used by the theorems -/

/-- The successfully imported candidates, in discovery order. -/
def successfulOf (l : List Discovered) : List Discovered :=
  l.filter (fun d => d.content.isSome)

/-- The dimensions the loop computes for one successfully imported file. -/
def dimensionsFor (host : Host) (cfg : Config) (verts : List Vec3) : Vec3 :=
  let use_blender := cfg.decimation_ratio.isSome || cfg.resize_factor.isSome
  let obj := if use_blender
    then applyModifications host verts cfg.decimation_ratio cfg.resize_factor
    else ⟨verts, 1⟩
  chooseDimensions host.eig cfg.dimension_method cfg.resize_factor obj

/-- Per-file report lines: none for a failed import, one formatted line
otherwise. -/
def linesForFile (host : Host) (cfg : Config) (d : Discovered) : List String :=
  match d.content with
  | none => []
  | some verts => [formatDimensionLine d.filename (dimensionsFor host cfg verts)]

/-- Per-file stdout. -/
def printsForFile (host : Host) (cfg : Config) (d : Discovered) : List String :=
  match d.content with
  | none => []
  | some verts =>
    if cfg.decimation_ratio.isSome || cfg.resize_factor.isSome then
      (process_stl host (some verts) (ospJoin d.root d.filename)
        (plannedOutputPath cfg d.root d.filename) cfg.decimation_ratio cfg.resize_factor).2
    else []

/-- Per-file written outputs. -/
def outputsForFile (host : Host) (cfg : Config) (d : Discovered) : List (String × OutFile) :=
  match d.content with
  | none => []
  | some verts =>
    if cfg.decimation_ratio.isSome || cfg.resize_factor.isSome then
      (process_stl host (some verts) (ospJoin d.root d.filename)
        (plannedOutputPath cfg d.root d.filename) cfg.decimation_ratio cfg.resize_factor).1
    else [(plannedOutputPath cfg d.root d.filename, OutFile.copied verts)]

/-! ## Concrete instances used in the theorems -/

/-- A host whose opaque numeric routines are trivial (runs that never invoke
them are unaffected by the choice). -/
def trivialHost : Host := ⟨fun _ v => v, fun _ => (fun _ => 0, fun _ _ => 0)⟩

def trivialEig : EigFn := fun _ => (fun _ => 0, fun _ _ => 0)

/-- The unit cube: vertices at every corner of `{0,1}³`. -/
def cubeVerts : List Vec3 :=
  [⟨0,0,0⟩, ⟨1,0,0⟩, ⟨0,1,0⟩, ⟨1,1,0⟩, ⟨0,0,1⟩, ⟨1,0,1⟩, ⟨0,1,1⟩, ⟨1,1,1⟩]

def unitCubeObj : SceneObj := ⟨cubeVerts, 1⟩

/-- Two points along the direction `(3,4,0)`. -/
def slantVerts : List Vec3 := [⟨0,0,0⟩, ⟨3,4,0⟩]

def slantObj : SceneObj := ⟨slantVerts, 1⟩

/-- A consistent eigendecomposition of the covariance of `slantVerts` as
numpy would report it (ascending eigenvalues `0, 0, 25/2`; orthonormal
eigenvector columns `(0,0,1)`, `(-4/5,3/5,0)`, `(3/5,4/5,0)`). -/
def slantEig : EigFn := fun _ =>
  (fun i => if i = 2 then 25/2 else 0,
   fun k j =>
     if j = 0 then (if k = 2 then 1 else 0)
     else if j = 1 then (if k = 0 then -4/5 else if k = 1 then 3/5 else 0)
     else (if k = 0 then 3/5 else if k = 1 then 4/5 else 0))

/-- Folding `os.path.join` over a list of names (the shape of every `root`
that `os.walk` passes to the loop body). -/
def joinAllCh (a : Chars) (ds : List Chars) : Chars := ds.foldl ospJoinCh a

def joinAllStr (a : String) (ds : List String) : String := ⟨joinAllCh a.data (ds.map String.data)⟩

/-! ## Concrete run configurations and trees used by the theorems -/

/-- Copy-only run (no decimation, no resize), dimensions requested. -/
def copyDimsCfg : Config := ⟨"in", "out", none, none, none, none, false, true, "axis-aligned"⟩

/-- Copy-only run with a prepend string that contains a path separator. -/
def slashPrependCfg : Config := ⟨"in", "out", none, none, some "a/", none, false, false, "axis-aligned"⟩

/-- Resize by −2 (the CLI accepts any float), dimensions requested. -/
def negativeResizeCfg : Config := ⟨"in", "out", none, some (-2), none, none, false, true, "axis-aligned"⟩

/-- A corrupt STL followed by a valid one. -/
def brokenThenGoodTree : List Entry :=
  [.file "broken.stl" none, .file "good.stl" (some cubeVerts)]

def cubeOnlyTree : List Entry := [.file "cube.stl" (some cubeVerts)]

/-- A small tree with a nested subtree, a corrupt file and a non-STL file. -/
def nestedTree : List Entry :=
  [.file "a.stl" (some cubeVerts),
   .dir "nested" [.file "b.stl" none, .dir "deep" [.file "c.stl" (some cubeVerts)]],
   .file "notes.txt" none]

/-! ## Specification-side tree enumeration and well-formedness -/

/-- The `.stl`-suffixed file names directly inside a directory. -/
def stlNamesHere (es : List Entry) : List String :=
  ((fileEntries es).map Prod.fst).filter (fun m => pyEndswith m ".stl")

mutual
/-- Relative-path components (against the root of `stlForestComps`) of every
`.stl` file strictly inside one entry. -/
def stlEntryComps : Entry → List (List String)
  | .file _ _ => []
  | .dir n sub =>
    (((stlNamesHere sub).map (fun m => [m])) ++ stlForestAux sub).map (fun p => n :: p)
/-- Relative-path components of every `.stl` file inside the subdirectories
of a forest, in directory order. -/
def stlForestAux : List Entry → List (List String)
  | [] => []
  | e :: rest => stlEntryComps e ++ stlForestAux rest
end

/-- Relative-path components of every `.stl` file in the whole subtree, in
`os.walk` top-down order: the root's own files first, then each subtree. -/
def stlForestComps (es : List Entry) : List (List String) :=
  ((stlNamesHere es).map (fun m => [m])) ++ stlForestAux es

/-- A sane filesystem name: nonempty and without the path separator. -/
def wfName (n : String) : Bool := decide (n.data ≠ [] ∧ '/' ∉ n.data)

mutual
def wfEntry : Entry → Bool
  | .file n _ => wfName n
  | .dir n sub => wfName n && wfForest sub
def wfForest : List Entry → Bool
  | [] => true
  | e :: rest => wfEntry e && wfForest rest
end

mutual
/-- Sibling names are distinct at every level below this entry (true of any
real directory tree). -/
def nodupEntry : Entry → Bool
  | .file _ _ => true
  | .dir _ sub => decide ((listdirNames sub).Nodup) && nodupForest sub
def nodupForest : List Entry → Bool
  | [] => true
  | e :: rest => nodupEntry e && nodupForest rest
end

/-- Sibling names are distinct at every level of the forest. -/
def nodupTree (es : List Entry) : Bool :=
  decide ((listdirNames es).Nodup) && nodupForest es

/-! ## Helper lemmas: fold max / min -/

theorem foldl_max_init_le (xs : List ℚ) : ∀ x : ℚ, x ≤ xs.foldl max x := by
  induction xs with
  | nil => intro x; simp
  | cons a as ih =>
    intro x
    calc x ≤ max x a := le_max_left x a
    _ ≤ (a :: as).foldl max x := by rw [List.foldl_cons]; exact ih (max x a)

theorem foldl_max_mem_le (xs : List ℚ) : ∀ x a : ℚ, a ∈ xs → a ≤ xs.foldl max x := by
  induction xs with
  | nil => intro x a h; cases h
  | cons b bs ih =>
    intro x a h
    rw [List.foldl_cons]
    rcases List.mem_cons.mp h with h1 | h2
    · subst h1
      calc a ≤ max x a := le_max_right x a
      _ ≤ bs.foldl max (max x a) := foldl_max_init_le bs (max x a)
    · exact ih (max x b) a h2

theorem foldl_max_mem (xs : List ℚ) : ∀ x : ℚ, xs.foldl max x = x ∨ xs.foldl max x ∈ xs := by
  induction xs with
  | nil => intro x; left; rfl
  | cons b bs ih =>
    intro x
    rw [List.foldl_cons]
    rcases ih (max x b) with h | h
    · rw [h]
      rcases max_choice x b with h1 | h1
      · left; exact h1
      · right; rw [h1]; exact List.mem_cons_self b bs
    · right; exact List.mem_cons_of_mem b h

theorem foldl_min_le_init (xs : List ℚ) : ∀ x : ℚ, xs.foldl min x ≤ x := by
  induction xs with
  | nil => intro x; simp
  | cons a as ih =>
    intro x
    calc (a :: as).foldl min x = as.foldl min (min x a) := by rw [List.foldl_cons]
    _ ≤ min x a := ih (min x a)
    _ ≤ x := min_le_left x a

theorem foldl_min_le_mem (xs : List ℚ) : ∀ x a : ℚ, a ∈ xs → xs.foldl min x ≤ a := by
  induction xs with
  | nil => intro x a h; cases h
  | cons b bs ih =>
    intro x a h
    rw [List.foldl_cons]
    rcases List.mem_cons.mp h with h1 | h2
    · subst h1
      calc bs.foldl min (min x a) ≤ min x a := foldl_min_le_init bs (min x a)
      _ ≤ a := min_le_right x a
    · exact ih (min x b) a h2

theorem foldl_min_mem (xs : List ℚ) : ∀ x : ℚ, xs.foldl min x = x ∨ xs.foldl min x ∈ xs := by
  induction xs with
  | nil => intro x; left; rfl
  | cons b bs ih =>
    intro x
    rw [List.foldl_cons]
    rcases ih (min x b) with h | h
    · rw [h]
      rcases min_choice x b with h1 | h1
      · left; exact h1
      · right; rw [h1]; exact List.mem_cons_self b bs
    · right; exact List.mem_cons_of_mem b h

theorem npMaxQ_mem (l : List ℚ) (h : l ≠ []) : npMaxQ l ∈ l := by
  match l with
  | [] => exact absurd rfl h
  | x :: xs =>
    rw [npMaxQ]
    rcases foldl_max_mem xs x with h1 | h1
    · rw [h1]; exact List.mem_cons_self x xs
    · exact List.mem_cons_of_mem x h1

theorem le_npMaxQ (l : List ℚ) (a : ℚ) (h : a ∈ l) : a ≤ npMaxQ l := by
  match l with
  | [] => cases h
  | x :: xs =>
    rw [npMaxQ]
    rcases List.mem_cons.mp h with h1 | h2
    · subst h1; exact foldl_max_init_le xs a
    · exact foldl_max_mem_le xs x a h2

theorem npMinQ_mem (l : List ℚ) (h : l ≠ []) : npMinQ l ∈ l := by
  match l with
  | [] => exact absurd rfl h
  | x :: xs =>
    rw [npMinQ]
    rcases foldl_min_mem xs x with h1 | h1
    · rw [h1]; exact List.mem_cons_self x xs
    · exact List.mem_cons_of_mem x h1

theorem npMinQ_le (l : List ℚ) (a : ℚ) (h : a ∈ l) : npMinQ l ≤ a := by
  match l with
  | [] => cases h
  | x :: xs =>
    rw [npMinQ]
    rcases List.mem_cons.mp h with h1 | h2
    · subst h1; exact foldl_min_le_init xs a
    · exact foldl_min_le_mem xs x a h2

theorem npMinQ_le_npMaxQ (l : List ℚ) (h : l ≠ []) : npMinQ l ≤ npMaxQ l :=
  le_trans (npMinQ_le l (npMaxQ l) (npMaxQ_mem l h)) (le_refl _)

/-! ## Helper lemmas: the per-file step and the traversal fold -/

theorem chooseDimensions_obb (eig : EigFn) (rf : Option ℚ) (obj : SceneObj) :
    chooseDimensions eig "obb" rf obj = get_oriented_bounding_box eig obj := by
  simp [chooseDimensions]

theorem chooseDimensions_not_obb (eig : EigFn) (m : String) (rf : Option ℚ) (obj : SceneObj)
    (h : m ≠ "obb") :
    chooseDimensions eig m rf obj = postScale (get_axis_aligned_bounding_box obj) rf := by
  simp [chooseDimensions, h]

theorem processOneFile_eq (host : Host) (cfg : Config) (st : RunState) (d : Discovered) :
    processOneFile host cfg st d =
      ⟨st.outputs ++ outputsForFile host cfg d,
       st.printed ++ printsForFile host cfg d,
       st.dimension_lines ++ linesForFile host cfg d⟩ := by
  obtain ⟨r, n, c⟩ := d
  cases c with
  | none => simp [processOneFile, outputsForFile, printsForFile, linesForFile]
  | some verts =>
    cases hub : (cfg.decimation_ratio.isSome || cfg.resize_factor.isSome) with
    | true =>
      simp [processOneFile, outputsForFile, printsForFile, linesForFile, dimensionsFor, hub]
    | false =>
      simp [processOneFile, outputsForFile, printsForFile, linesForFile, dimensionsFor, hub]

theorem foldl_processOneFile (host : Host) (cfg : Config) (l : List Discovered) :
    ∀ st : RunState,
      l.foldl (processOneFile host cfg) st =
        ⟨st.outputs ++ (l.map (outputsForFile host cfg)).flatten,
         st.printed ++ (l.map (printsForFile host cfg)).flatten,
         st.dimension_lines ++ (l.map (linesForFile host cfg)).flatten⟩ := by
  induction l with
  | nil => intro st; simp
  | cons d l ih =>
    intro st
    rw [List.foldl_cons, processOneFile_eq, ih]
    simp

theorem printsForFile_eq_nil (host : Host) (cfg : Config) (d : Discovered) :
    printsForFile host cfg d = [] := by
  obtain ⟨r, n, c⟩ := d
  cases c with
  | none => rfl
  | some verts =>
    cases hub : (cfg.decimation_ratio.isSome || cfg.resize_factor.isSome) with
    | true => simp [printsForFile, hub, process_stl]
    | false => simp [printsForFile, hub]

theorem join_linesForFile (host : Host) (cfg : Config) (l : List Discovered) :
    (l.map (linesForFile host cfg)).flatten =
      (successfulOf l).map
        (fun d => formatDimensionLine d.filename (dimensionsFor host cfg (d.content.getD []))) := by
  induction l with
  | nil => rfl
  | cons d l ih =>
    obtain ⟨r, n, c⟩ := d
    cases c with
    | none => simpa [linesForFile, successfulOf] using ih
    | some verts => simpa [linesForFile, successfulOf] using ih

theorem finalRunState_eq (host : Host) (cfg : Config) (tree : List Entry) :
    finalRunState host cfg tree =
      ⟨((discoverFiles cfg tree).map (outputsForFile host cfg)).flatten,
       [],
       ((discoverFiles cfg tree).map (linesForFile host cfg)).flatten⟩ := by
  rw [finalRunState, foldl_processOneFile]
  have h : ((discoverFiles cfg tree).map (printsForFile host cfg)).flatten = ([] : List String) := by
    rw [List.flatten_eq_nil_iff]
    intro x hx
    rcases List.mem_map.mp hx with ⟨d, _, hd⟩
    rw [← hd, printsForFile_eq_nil]
  simp [h]

theorem accumulatedLines_eq (host : Host) (cfg : Config) (tree : List Entry) :
    accumulatedLines host cfg tree =
      (successfulOf (discoverFiles cfg tree)).map
        (fun d => formatDimensionLine d.filename (dimensionsFor host cfg (d.content.getD []))) := by
  rw [accumulatedLines, finalRunState_eq, join_linesForFile]

theorem run_outputs_eq (host : Host) (cfg : Config) (tree : List Entry) :
    (process_and_write_dimensions host cfg tree).outputs =
      ((discoverFiles cfg tree).map (outputsForFile host cfg)).flatten := by
  rw [process_and_write_dimensions, finalRunState_eq]

theorem run_printed_eq (host : Host) (cfg : Config) (tree : List Entry) :
    (process_and_write_dimensions host cfg tree).printed = ["Done."] := by
  rw [process_and_write_dimensions, finalRunState_eq]
  rfl

theorem run_report_eq (host : Host) (cfg : Config) (tree : List Entry) :
    (process_and_write_dimensions host cfg tree).report =
      if cfg.dimensions_flag && !(accumulatedLines host cfg tree).isEmpty then
        some (ospJoin cfg.output_directory "dimensions.txt",
          String.intercalate "\n" (accumulatedLines host cfg tree))
      else none := by
  rw [process_and_write_dimensions, accumulatedLines]

/-! ## Helper lemmas: posixpath strings -/

theorem splitSlash_ne_nil (l : Chars) : splitSlash l ≠ [] := by
  induction l with
  | nil => simp [splitSlash]
  | cons c cs ih =>
    by_cases hc : isSlash c
    · simp [splitSlash, hc]
    · rw [splitSlash]
      simp only [hc]
      cases h : splitSlash cs with
      | nil => simp
      | cons p ps => simp

theorem splitSlash_append (a b : Chars) :
    splitSlash (a ++ '/' :: b) = splitSlash a ++ splitSlash b := by
  induction a with
  | nil => simp [splitSlash, isSlash]
  | cons c a' ih =>
    show splitSlash (c :: (a' ++ '/' :: b)) = splitSlash (c :: a') ++ splitSlash b
    rw [splitSlash, splitSlash]
    by_cases hc : isSlash c
    · simp only [hc, if_true, ih]
      rfl
    · simp only [hc, if_false, ih]
      cases h : splitSlash a' with
      | nil => exact absurd h (splitSlash_ne_nil a')
      | cons p ps => simp

theorem componentsCh_append (a b : Chars) :
    componentsCh (a ++ '/' :: b) = componentsCh a ++ componentsCh b := by
  rw [componentsCh, splitSlash_append, List.filter_append]
  rfl

theorem splitSlash_no_slash (l : Chars) (h : '/' ∉ l) : splitSlash l = [l] := by
  induction l with
  | nil => rfl
  | cons c cs ih =>
    have hc : ¬ isSlash c := by
      simp only [isSlash, decide_eq_true_eq]
      intro he
      exact h (he ▸ List.mem_cons_self c cs)
    have hcs : '/' ∉ cs := fun hm => h (List.mem_cons_of_mem c hm)
    rw [splitSlash]
    simp [hc, ih hcs]

theorem componentsCh_nil : componentsCh [] = [] := rfl

theorem componentsCh_name (l : Chars) (hs : '/' ∉ l) (hne : l ≠ []) : componentsCh l = [l] := by
  rw [componentsCh, splitSlash_no_slash l hs]
  simp [hne]

theorem head?_eq_some_mem (l : Chars) (c : Char) (h : l.head? = some c) : c ∈ l := by
  cases l with
  | nil => cases h
  | cons x xs =>
    simp only [List.head?_cons, Option.some.injEq] at h
    exact h ▸ List.mem_cons_self x xs

theorem componentsCh_ospJoin (a b : Chars) (hb : b.head? ≠ some '/') :
    componentsCh (ospJoinCh a b) = componentsCh a ++ componentsCh b := by
  rw [ospJoinCh]
  simp only [hb, if_false]
  by_cases ha : a = [] ∨ a.getLast? = some '/'
  · rw [if_pos ha]
    rcases ha with ha | ha
    · subst ha; rfl
    · rcases List.eq_nil_or_concat a with h0 | ⟨a', c, hc⟩
      · subst h0; cases ha
      · have hc' : a = a' ++ ['/'] := by
          rw [hc, List.concat_eq_append]
          rw [hc, List.concat_eq_append, List.getLast?_concat] at ha
          simp only [Option.some.injEq] at ha
          rw [ha]
        subst hc'
        have h1 : a' ++ ['/'] ++ b = a' ++ '/' :: b := by simp
        rw [h1, componentsCh_append]
        have h2 : componentsCh (a' ++ ['/']) = componentsCh a' := by
          have : a' ++ ['/'] = a' ++ '/' :: ([] : Chars) := rfl
          rw [this, componentsCh_append, componentsCh_nil, List.append_nil]
        rw [h2]
  · rw [if_neg ha, componentsCh_append]

theorem joinCompsCh_single (p : Chars) : joinCompsCh [p] = p := by
  simp [joinCompsCh, List.intercalate, List.intersperse]

theorem joinCompsCh_cons (p q : Chars) (ps : List Chars) :
    joinCompsCh (p :: q :: ps) = p ++ '/' :: joinCompsCh (q :: ps) := by
  simp [joinCompsCh, List.intercalate, List.intersperse]

theorem componentsCh_joinComps (ps : List Chars)
    (h : ∀ p ∈ ps, p ≠ [] ∧ '/' ∉ p) : componentsCh (joinCompsCh ps) = ps := by
  induction ps with
  | nil => rfl
  | cons p ps ih =>
    cases ps with
    | nil =>
      rw [joinCompsCh_single]
      exact componentsCh_name p (h p (List.mem_cons_self p [])).2 (h p (List.mem_cons_self p [])).1
    | cons q ps' =>
      rw [joinCompsCh_cons, componentsCh_append]
      have hp := h p (List.mem_cons_self p _)
      rw [componentsCh_name p hp.2 hp.1]
      have hrest : ∀ r ∈ q :: ps', r ≠ [] ∧ '/' ∉ r := fun r hr => h r (List.mem_cons_of_mem p hr)
      rw [ih hrest]
      rfl

theorem commonLen_self_append (L M : List Chars) : commonLen L (L ++ M) = L.length := by
  induction L with
  | nil => rfl
  | cons a as ih =>
    rw [List.cons_append, commonLen]
    simp [ih]

theorem head?_ne_slash (b : Chars) (h : '/' ∉ b) : b.head? ≠ some '/' :=
  fun hh => h (head?_eq_some_mem b '/' hh)

theorem componentsCh_joinAll (ds : List Chars) :
    ∀ a : Chars, (∀ d ∈ ds, d ≠ [] ∧ '/' ∉ d) →
      componentsCh (joinAllCh a ds) = componentsCh a ++ ds := by
  induction ds with
  | nil => intro a _; simp [joinAllCh]
  | cons d ds ih =>
    intro a h
    have hd := h d (List.mem_cons_self d ds)
    have hstep : joinAllCh a (d :: ds) = joinAllCh (ospJoinCh a d) ds := rfl
    rw [hstep, ih (ospJoinCh a d) (fun x hx => h x (List.mem_cons_of_mem d hx)),
      componentsCh_ospJoin a d (head?_ne_slash d hd.2), componentsCh_name d hd.2 hd.1]
    simp

theorem relpathCh_joinAll (inp : Chars) (ds : List Chars) (f : Chars)
    (hds : ∀ d ∈ ds, d ≠ [] ∧ '/' ∉ d) (hf1 : f ≠ []) (hf2 : '/' ∉ f) :
    relpathCh (ospJoinCh (joinAllCh inp ds) f) inp = joinCompsCh (ds ++ [f]) := by
  have hpath : componentsCh (ospJoinCh (joinAllCh inp ds) f)
      = componentsCh inp ++ (ds ++ [f]) := by
    rw [componentsCh_ospJoin _ f (head?_ne_slash f hf2), componentsCh_joinAll ds inp hds,
      componentsCh_name f hf2 hf1, List.append_assoc]
  rw [relpathCh]
  simp only [hpath, commonLen_self_append, Nat.sub_self, List.replicate_zero, List.nil_append,
    List.drop_left]
  simp

theorem relpathCh_join_name (inp f : Chars) (hf1 : f ≠ []) (hf2 : '/' ∉ f) :
    relpathCh (ospJoinCh inp f) inp = f := by
  have h := relpathCh_joinAll inp [] f (by simp) hf1 hf2
  simpa [joinAllCh, joinCompsCh_single] using h

theorem dropWhile_append_of_all {p : Char → Bool} (a b : Chars) (h : ∀ x ∈ a, p x = true) :
    (a ++ b).dropWhile p = b.dropWhile p := by
  induction a with
  | nil => rfl
  | cons x xs ih =>
    rw [List.cons_append, List.dropWhile_cons, if_pos (h x (List.mem_cons_self x xs))]
    exact ih (fun y hy => h y (List.mem_cons_of_mem x hy))

theorem dirnameCh_append (a n : Chars) (ha1 : a ≠ []) (ha2 : a.getLast? ≠ some '/')
    (_hn1 : n ≠ []) (hn2 : '/' ∉ n) : dirnameCh (a ++ '/' :: n) = a := by
  rcases List.eq_nil_or_concat a with h0 | ⟨a', c, hc⟩
  · exact absurd h0 ha1
  rw [List.concat_eq_append] at hc
  have hcns : c ≠ '/' := by
    intro he
    apply ha2
    rw [hc, he, List.getLast?_concat]
  have hrev : (a ++ '/' :: n).reverse = n.reverse ++ '/' :: a.reverse := by
    rw [List.reverse_append, List.reverse_cons, List.append_assoc]
    rfl
  have hdrop : ((a ++ '/' :: n).reverse.dropWhile (fun c => !isSlash c)) = '/' :: a.reverse := by
    rw [hrev, dropWhile_append_of_all _ _ (by
      intro x hx
      have : x ∈ n := List.mem_reverse.mp hx
      have : x ≠ '/' := fun he => hn2 (he ▸ this)
      simp [isSlash, this])]
    rw [List.dropWhile_cons, if_neg (by simp [isSlash])]
  rw [dirnameCh]
  simp only [hdrop]
  have hheadform : ('/' :: a.reverse).reverse = a ++ ['/'] := by
    rw [List.reverse_cons, List.reverse_reverse]
  rw [hheadform]
  have hcond : ¬(a ++ ['/'] = [] ∨ (a ++ ['/']).all isSlash = true) := by
    rintro (h1 | h1)
    · exact (List.append_ne_nil_of_right_ne_nil a (by simp)) h1
    · rw [List.all_eq_true] at h1
      have hcmem : c ∈ a ++ ['/'] := by
        rw [hc]
        exact List.mem_append_left _ (List.mem_append_right _ (List.mem_cons_self c []))
      have := h1 c hcmem
      simp [isSlash, hcns] at this
  rw [if_neg hcond]
  have hrr : (a ++ ['/']).reverse = '/' :: a.reverse := by
    rw [List.reverse_append]
    rfl
  rw [hrr, List.dropWhile_cons, if_pos (by simp [isSlash])]
  have har : a.reverse = c :: a'.reverse := by
    rw [hc, List.reverse_append]
    rfl
  rw [har, List.dropWhile_cons, if_neg (by simp [isSlash, hcns])]
  rw [← har, List.reverse_reverse]

theorem dirnameCh_no_slash (n : Chars) (h : '/' ∉ n) : dirnameCh n = [] := by
  rw [dirnameCh]
  have hdrop : n.reverse.dropWhile (fun c => !isSlash c) = [] := by
    rw [List.dropWhile_eq_nil_iff]
    intro x hx
    have hxn : x ∈ n := List.mem_reverse.mp hx
    have : x ≠ '/' := fun he => h (he ▸ hxn)
    simp [isSlash, this]
  simp [hdrop]

theorem dropWhile_nil_or_head_false {p : Char → Bool} (l : Chars) :
    l.dropWhile p = [] ∨ ∃ c t, l.dropWhile p = c :: t ∧ p c = false := by
  induction l with
  | nil => left; rfl
  | cons x xs ih =>
    rw [List.dropWhile_cons]
    by_cases hx : p x
    · rw [if_pos hx]; exact ih
    · rw [if_neg hx]
      right
      exact ⟨x, xs, rfl, by simpa using hx⟩

theorem splitextCh_recomb (p : Chars) : (splitextCh p).1 ++ (splitextCh p).2 = p := by
  rw [splitextCh]
  simp only []
  split
  · simp
  split
  · simp
  rename_i h1 h2
  set revBase := p.reverse.takeWhile (fun c => !isSlash c) with hrevBase
  set afterDot := revBase.takeWhile (fun c => decide (c ≠ '.')) with hafterDot
  set restAll := p.reverse.dropWhile (fun c => !isSlash c) with hrestAll
  have hsplit1 : afterDot ++ revBase.dropWhile (fun c => decide (c ≠ '.')) = revBase :=
    List.takeWhile_append_dropWhile _ _
  rcases dropWhile_nil_or_head_false (p := fun c => decide (c ≠ '.')) revBase with hnil | ⟨c, t, hct, hcf⟩
  · exfalso
    apply h1
    rw [hnil, List.append_nil] at hsplit1
    rw [hsplit1]
    simp
  have hcdot : c = '.' := by
    by_contra hne
    simp [hne] at hcf
  subst hcdot
  rw [hct] at hsplit1
  have hbase : revBase.reverse = t.reverse ++ '.' :: afterDot.reverse := by
    rw [← hsplit1, List.reverse_append, List.reverse_cons, List.append_assoc]
    rfl
  have hlen : revBase.reverse.length - afterDot.length - 1 = t.length := by
    rw [hbase]
    simp
    omega
  have hstem : revBase.reverse.take (revBase.reverse.length - afterDot.length - 1) = t.reverse := by
    rw [hlen, hbase, List.take_left' (by simp)]
  have hp : p = restAll.reverse ++ revBase.reverse := by
    have h3 : revBase ++ restAll = p.reverse := List.takeWhile_append_dropWhile _ _
    calc p = p.reverse.reverse := by rw [List.reverse_reverse]
    _ = (revBase ++ restAll).reverse := by rw [h3]
    _ = restAll.reverse ++ revBase.reverse := by rw [List.reverse_append]
  have hlen2 : p.length - revBase.reverse.length = restAll.length := by
    rw [hp]
    simp
  have hhead : p.take (p.length - revBase.reverse.length) = restAll.reverse := by
    rw [hlen2, hp, List.take_left' (by simp)]
  rw [hhead, hstem, hp, hbase]
  simp

/-! ## Helper lemmas: the recursive traversal -/

theorem wfForest_cons (e : Entry) (rest : List Entry) :
    wfForest (e :: rest) = (wfEntry e && wfForest rest) := by
  rw [wfForest]

theorem wfForest_mem (es : List Entry) (hwf : wfForest es = true) :
    ∀ e ∈ es, wfEntry e = true := by
  induction es with
  | nil => intro e he; cases he
  | cons a rest ih =>
    rw [wfForest_cons, Bool.and_eq_true] at hwf
    intro e he
    rcases List.mem_cons.mp he with h | h
    · exact h ▸ hwf.1
    · exact ih hwf.2 e h

theorem mem_fileEntries (es : List Entry) (m : String) (c : Option (List Vec3)) :
    (m, c) ∈ fileEntries es ↔ Entry.file m c ∈ es := by
  induction es with
  | nil => simp [fileEntries]
  | cons e rest ih =>
    cases e with
    | file n cc =>
      simp only [fileEntries, List.filterMap_cons] at *
      constructor
      · intro h
        rcases List.mem_cons.mp h with h | h
        · rw [Prod.mk.injEq] at h
          exact List.mem_cons.mpr (Or.inl (by rw [h.1, h.2]))
        · exact List.mem_cons.mpr (Or.inr (ih.mp h))
      · intro h
        rcases List.mem_cons.mp h with h | h
        · rw [Entry.file.injEq] at h
          exact List.mem_cons.mpr (Or.inl (by rw [h.1, h.2]))
        · exact List.mem_cons.mpr (Or.inr (ih.mpr h))
    | dir n sub =>
      simp only [fileEntries, List.filterMap_cons] at *
      constructor
      · intro h
        exact List.mem_cons.mpr (Or.inr (ih.mp h))
      · intro h
        rcases List.mem_cons.mp h with h | h
        · cases h
        · exact ih.mpr h

theorem stlNamesHere_wf (es : List Entry) (hwf : wfForest es = true) :
    ∀ m ∈ stlNamesHere es, m.data ≠ [] ∧ '/' ∉ m.data := by
  intro m hm
  rw [stlNamesHere] at hm
  have hm2 : m ∈ (fileEntries es).map Prod.fst := List.mem_of_mem_filter hm
  rcases List.mem_map.mp hm2 with ⟨⟨m', c⟩, hmc, he⟩
  have he2 : m' = m := he
  subst he2
  have : Entry.file m' c ∈ es := (mem_fileEntries es m' c).mp hmc
  have hwe := wfForest_mem es hwf _ this
  rw [wfEntry, wfName, decide_eq_true_eq] at hwe
  exact hwe

theorem joinAllStr_snoc (inp : String) (ds : List String) (n : String) :
    ospJoin (joinAllStr inp ds) n = joinAllStr inp (ds ++ [n]) := by
  apply String.ext
  show ospJoinCh (joinAllCh inp.data (ds.map String.data)) n.data
      = joinAllCh inp.data ((ds ++ [n]).map String.data)
  rw [List.map_append, joinAllCh, joinAllCh, List.foldl_append]
  rfl

theorem relpathStr_joinAll (inp : String) (ds : List String) (m : String)
    (hds : ∀ d ∈ ds, d.data ≠ [] ∧ '/' ∉ d.data)
    (hm : m.data ≠ [] ∧ '/' ∉ m.data) :
    relpathStr (ospJoin (joinAllStr inp ds) m) inp = joinComponentsStr (ds ++ [m]) := by
  apply String.ext
  show relpathCh (ospJoinCh (joinAllCh inp.data (ds.map String.data)) m.data) inp.data
      = joinCompsCh ((ds ++ [m]).map String.data)
  rw [List.map_append]
  exact relpathCh_joinAll inp.data (ds.map String.data) m.data
    (by
      intro dC hdC
      rcases List.mem_map.mp hdC with ⟨d, hd, he⟩
      exact he ▸ hds d hd)
    hm.1 hm.2

theorem relpathStr_join_name (inp m : String) (hm : m.data ≠ [] ∧ '/' ∉ m.data) :
    relpathStr (ospJoin inp m) inp = m := by
  apply String.ext
  show relpathCh (ospJoinCh inp.data m.data) inp.data = m.data
  exact relpathCh_join_name inp.data m.data hm.1 hm.2

theorem stlFilesHere_relpaths (sub : List Entry) (inp : String) (ds : List String)
    (hds : ∀ d ∈ ds, d.data ≠ [] ∧ '/' ∉ d.data)
    (hwf : wfForest sub = true) :
    (stlFilesHere (joinAllStr inp ds) sub).map
        (fun d => relpathStr (ospJoin d.root d.filename) inp)
      = ((stlNamesHere sub).map (fun m => [m])).map (fun p => joinComponentsStr (ds ++ p)) := by
  rw [stlFilesHere, stlNamesHere, List.filter_map, List.map_map, List.map_map, List.map_map]
  apply List.map_congr_left
  intro p hp
  have hpf : p.1 ∈ stlNamesHere sub := by
    rw [stlNamesHere, List.filter_map]
    exact List.mem_map.mpr ⟨p, hp, rfl⟩
  have hw := stlNamesHere_wf sub hwf p.1 hpf
  show relpathStr (ospJoin (joinAllStr inp ds) p.1) inp = joinComponentsStr (ds ++ [p.1])
  exact relpathStr_joinAll inp ds p.1 hds hw

theorem walkSubdirs_relpaths (N : Nat) :
    ∀ (es : List Entry), sizeOf es ≤ N → wfForest es = true →
      ∀ (inp : String) (ds : List String), (∀ d ∈ ds, d.data ≠ [] ∧ '/' ∉ d.data) →
        (walkSubdirsD es (joinAllStr inp ds)).map
            (fun d => relpathStr (ospJoin d.root d.filename) inp)
          = (stlForestAux es).map (fun p => joinComponentsStr (ds ++ p)) := by
  induction N with
  | zero =>
    intro es hs
    exfalso
    have h1 : 1 ≤ sizeOf es := by cases es <;> simp_arith
    omega
  | succ N ih =>
    intro es hs hwf inp ds hds
    cases es with
    | nil => rfl
    | cons e rest =>
      rw [wfForest_cons, Bool.and_eq_true] at hwf
      have hse : 1 ≤ sizeOf e := by cases e <;> simp_arith
      have hcons := List.cons.sizeOf_spec e rest
      have hsr : sizeOf rest ≤ N := by omega
      rw [walkSubdirsD, stlForestAux, List.map_append, List.map_append]
      congr 1
      · cases e with
        | file n c => rfl
        | dir n sub =>
          have hwe := hwf.1
          rw [wfEntry, Bool.and_eq_true] at hwe
          have hn : n.data ≠ [] ∧ '/' ∉ n.data := by
            have h := hwe.1
            rw [wfName, decide_eq_true_eq] at h
            exact h
          have hdir := Entry.dir.sizeOf_spec n sub
          have hsub : sizeOf sub ≤ N := by omega
          have hds' : ∀ d ∈ ds ++ [n], d.data ≠ [] ∧ '/' ∉ d.data := by
            intro d hd
            rcases List.mem_append.mp hd with h | h
            · exact hds d h
            · rw [List.mem_singleton] at h
              exact h ▸ hn
          rw [walkEntryD, stlEntryComps, joinAllStr_snoc inp ds n, List.map_append,
            List.map_append, List.map_append]
          congr 1
          · rw [stlFilesHere_relpaths sub inp (ds ++ [n]) hds' hwe.2]
            simp only [List.map_map]
            apply List.map_congr_left
            intro m hm
            simp [Function.comp_def, List.append_assoc]
          · rw [ih sub hsub hwe.2 inp (ds ++ [n]) hds']
            simp only [List.map_map]
            apply List.map_congr_left
            intro p hp
            simp [Function.comp_def, List.append_assoc]
      · exact ih rest hsr hwf.2 inp ds hds

theorem discoverWalk_relpaths (tree : List Entry) (inp : String) (hwf : wfForest tree = true) :
    (discoverWalk inp tree).map (fun d => relpathStr (ospJoin d.root d.filename) inp)
      = (stlForestComps tree).map joinComponentsStr := by
  rw [discoverWalk, stlForestComps, List.map_append, List.map_append]
  congr 1
  · show List.map _ (stlFilesHere (joinAllStr inp []) tree) = _
    rw [stlFilesHere_relpaths tree inp [] (by simp) hwf]
    simp only [List.map_map]
    apply List.map_congr_left
    intro m hm
    simp [Function.comp_def]
  · show List.map _ (walkSubdirsD tree (joinAllStr inp [])) = _
    rw [walkSubdirs_relpaths (sizeOf tree) tree (le_refl _) hwf inp [] (by simp)]
    apply List.map_congr_left
    intro p hp
    rfl

theorem fileNames_sublist (es : List Entry) :
    ((fileEntries es).map Prod.fst).Sublist (listdirNames es) := by
  induction es with
  | nil => simp [fileEntries, listdirNames]
  | cons e rest ih =>
    cases e with
    | file n c =>
      show (n :: (fileEntries rest).map Prod.fst).Sublist (n :: listdirNames rest)
      exact ih.cons₂ n
    | dir n sub =>
      show ((fileEntries rest).map Prod.fst).Sublist (n :: listdirNames rest)
      exact ih.cons n

theorem stlNamesHere_nodup (es : List Entry) (h : (listdirNames es).Nodup) :
    (stlNamesHere es).Nodup := by
  rw [stlNamesHere]
  exact (h.sublist (fileNames_sublist es)).filter _

theorem nodupTree_cons (e : Entry) (rest : List Entry) (h : nodupTree (e :: rest) = true) :
    nodupEntry e = true ∧ nodupTree rest = true ∧ (listdirNames (e :: rest)).Nodup := by
  rw [nodupTree, Bool.and_eq_true, decide_eq_true_eq] at h
  have hf : nodupForest (e :: rest) = (nodupEntry e && nodupForest rest) := by rw [nodupForest]
  rw [hf, Bool.and_eq_true] at h
  refine ⟨h.2.1, ?_, h.1⟩
  rw [nodupTree, Bool.and_eq_true, decide_eq_true_eq]
  exact ⟨(List.nodup_cons.mp h.1).2, h.2.2⟩

theorem nodupTree_dir (n : String) (sub : List Entry) (h : nodupEntry (Entry.dir n sub) = true) :
    nodupTree sub = true := by
  rw [nodupEntry] at h
  rw [nodupTree]
  exact h

theorem stlForestAux_shape (N : Nat) :
    ∀ es : List Entry, sizeOf es ≤ N →
      ∀ p ∈ stlForestAux es, ∃ e ∈ es, Entry.isDirB e = true ∧
        ∃ q, p = Entry.entryName e :: q ∧ q ≠ [] := by
  induction N with
  | zero =>
    intro es hs
    exfalso
    have h1 : 1 ≤ sizeOf es := by cases es <;> simp_arith
    omega
  | succ N ih =>
    intro es hs p hp
    cases es with
    | nil => cases hp
    | cons e rest =>
      have hse : 1 ≤ sizeOf e := by cases e <;> simp_arith
      have hcons := List.cons.sizeOf_spec e rest
      rw [stlForestAux] at hp
      rcases List.mem_append.mp hp with hp | hp
      · cases e with
        | file n c => cases hp
        | dir n sub =>
          rw [stlEntryComps] at hp
          rcases List.mem_map.mp hp with ⟨q, hq, he⟩
          refine ⟨Entry.dir n sub, List.mem_cons_self _ _, rfl, q, he.symm, ?_⟩
          rcases List.mem_append.mp hq with hq | hq
          · rcases List.mem_map.mp hq with ⟨m, _, hm⟩
            rw [← hm]
            simp
          · have hdir := Entry.dir.sizeOf_spec n sub
            have hsub : sizeOf sub ≤ N := by omega
            rcases ih sub hsub q hq with ⟨_, _, _, q', hq', _⟩
            rw [hq']
            simp
      · have hsr : sizeOf rest ≤ N := by omega
        rcases ih rest hsr p hp with ⟨e', he', hd, q, hq, hqne⟩
        exact ⟨e', List.mem_cons_of_mem e he', hd, q, hq, hqne⟩

theorem stlForest_nodup (N : Nat) :
    ∀ es : List Entry, sizeOf es ≤ N → nodupTree es = true →
      (stlForestComps es).Nodup ∧ (stlForestAux es).Nodup := by
  induction N with
  | zero =>
    intro es hs
    exfalso
    have h1 : 1 ≤ sizeOf es := by cases es <;> simp_arith
    omega
  | succ N ih =>
    intro es hs hnd
    have hnames : (listdirNames es).Nodup := by
      rw [nodupTree, Bool.and_eq_true, decide_eq_true_eq] at hnd
      exact hnd.1
    have haux : (stlForestAux es).Nodup := by
      cases es with
      | nil => exact List.nodup_nil
      | cons e rest =>
        have hse : 1 ≤ sizeOf e := by cases e <;> simp_arith
        have hcons := List.cons.sizeOf_spec e rest
        have hsr : sizeOf rest ≤ N := by omega
        obtain ⟨hne, hnrest, hln⟩ := nodupTree_cons e rest hnd
        rw [stlForestAux, List.nodup_append]
        refine ⟨?_, ?_, ?_⟩
        · cases e with
          | file n c => exact List.nodup_nil
          | dir n sub =>
            rw [stlEntryComps]
            have hdir := Entry.dir.sizeOf_spec n sub
            have hsub : sizeOf sub ≤ N := by omega
            have hsubnd : nodupTree sub = true := nodupTree_dir n sub hne
            have hcompsub : (stlForestComps sub).Nodup := by
              have := (ih sub hsub hsubnd).1
              rw [stlForestComps] at this
              exact this
            exact hcompsub.map (fun a b hab => (List.cons.injEq n a n b ▸ hab : _ ∧ _).2)
        · have hrest2 : sizeOf rest ≤ N := hsr
          exact ((ih rest hrest2 hnrest).2)
        · intro p hp1 hp2
          cases e with
          | file n c => cases hp1
          | dir n sub =>
            rw [stlEntryComps] at hp1
            rcases List.mem_map.mp hp1 with ⟨q, _, he⟩
            rcases stlForestAux_shape N rest hsr p hp2 with ⟨e', he', _, q', hq', _⟩
            rw [← he] at hq'
            have hhead : n = Entry.entryName e' := (List.cons.injEq _ _ _ _ ▸ hq' : _ ∧ _).1
            have : Entry.entryName e' ∈ listdirNames rest :=
              List.mem_map.mpr ⟨e', he', rfl⟩
            rw [← hhead] at this
            rw [listdirNames, List.map_cons] at hln
            exact (List.nodup_cons.mp hln).1 this
    constructor
    · rw [stlForestComps, List.nodup_append]
      refine ⟨?_, haux, ?_⟩
      · exact (stlNamesHere_nodup es hnames).map
          (fun a b hab => (List.cons.injEq a [] b [] ▸ hab : _ ∧ _).1)
      · intro p hp1 hp2
        rcases List.mem_map.mp hp1 with ⟨m, _, hm⟩
        rcases stlForestAux_shape (N + 1) es hs p hp2 with ⟨_, _, _, q, hq, hqne⟩
        rw [← hm] at hq
        have : ([] : List String) = q := (List.cons.injEq _ _ _ _ ▸ hq : _ ∧ _).2
        exact hqne this.symm
    · exact haux

theorem stlForestAux_wf_elems (N : Nat) :
    ∀ es : List Entry, sizeOf es ≤ N → wfForest es = true →
      ∀ p ∈ stlForestAux es, ∀ m ∈ p, m.data ≠ [] ∧ '/' ∉ m.data := by
  induction N with
  | zero =>
    intro es hs
    exfalso
    have h1 : 1 ≤ sizeOf es := by cases es <;> simp_arith
    omega
  | succ N ih =>
    intro es hs hwf p hp m hm
    cases es with
    | nil => cases hp
    | cons e rest =>
      have hse : 1 ≤ sizeOf e := by cases e <;> simp_arith
      have hcons := List.cons.sizeOf_spec e rest
      have hsr : sizeOf rest ≤ N := by omega
      rw [wfForest_cons, Bool.and_eq_true] at hwf
      rw [stlForestAux] at hp
      rcases List.mem_append.mp hp with hp | hp
      · cases e with
        | file n c => cases hp
        | dir n sub =>
          have hwe := hwf.1
          rw [wfEntry, Bool.and_eq_true] at hwe
          have hn : n.data ≠ [] ∧ '/' ∉ n.data := by
            have h := hwe.1
            rw [wfName, decide_eq_true_eq] at h
            exact h
          have hdir := Entry.dir.sizeOf_spec n sub
          have hsub : sizeOf sub ≤ N := by omega
          rw [stlEntryComps] at hp
          rcases List.mem_map.mp hp with ⟨q, hq, he⟩
          rw [← he] at hm
          rcases List.mem_cons.mp hm with hm | hm
          · exact hm ▸ hn
          · rcases List.mem_append.mp hq with hq | hq
            · rcases List.mem_map.mp hq with ⟨m', hm', he'⟩
              rw [← he'] at hm
              rw [List.mem_singleton] at hm
              exact hm ▸ stlNamesHere_wf sub hwe.2 m' hm'
            · exact ih sub hsub hwe.2 q hq m hm
      · exact ih rest hsr hwf.2 p hp m hm

theorem stlForestComps_wf_elems (es : List Entry) (hwf : wfForest es = true) :
    ∀ p ∈ stlForestComps es, ∀ m ∈ p, m.data ≠ [] ∧ '/' ∉ m.data := by
  intro p hp m hm
  rw [stlForestComps] at hp
  rcases List.mem_append.mp hp with hp | hp
  · rcases List.mem_map.mp hp with ⟨m', hm', he⟩
    rw [← he, List.mem_singleton] at hm
    exact hm ▸ stlNamesHere_wf es hwf m' hm'
  · exact stlForestAux_wf_elems (sizeOf es) es (le_refl _) hwf p hp m hm

theorem map_data_injective (ps qs : List String)
    (h : ps.map String.data = qs.map String.data) : ps = qs := by
  induction ps generalizing qs with
  | nil => cases qs <;> simp_all
  | cons p ps ih =>
    cases qs with
    | nil => simp at h
    | cons q qs =>
      simp only [List.map_cons, List.cons.injEq] at h
      rw [ih qs h.2]
      rw [List.cons.injEq]
      exact ⟨String.ext h.1, rfl⟩

theorem joinComponentsStr_inj (ps qs : List String)
    (hp : ∀ m ∈ ps, m.data ≠ [] ∧ '/' ∉ m.data)
    (hq : ∀ m ∈ qs, m.data ≠ [] ∧ '/' ∉ m.data)
    (h : joinComponentsStr ps = joinComponentsStr qs) : ps = qs := by
  have hd : joinCompsCh (ps.map String.data) = joinCompsCh (qs.map String.data) :=
    congrArg String.data h
  have h1 : componentsCh (joinCompsCh (ps.map String.data)) = ps.map String.data :=
    componentsCh_joinComps _ (by
      intro pc hpc
      rcases List.mem_map.mp hpc with ⟨p, hpm, he⟩
      exact he ▸ hp p hpm)
  have h2 : componentsCh (joinCompsCh (qs.map String.data)) = qs.map String.data :=
    componentsCh_joinComps _ (by
      intro pc hpc
      rcases List.mem_map.mp hpc with ⟨p, hpm, he⟩
      exact he ▸ hq p hpm)
  apply map_data_injective
  rw [← h1, ← h2, hd]

theorem stlForestComps_paths_nodup (tree : List Entry) (hwf : wfForest tree = true)
    (hnd : nodupTree tree = true) :
    ((stlForestComps tree).map joinComponentsStr).Nodup := by
  apply ((stlForest_nodup (sizeOf tree) tree (le_refl _) hnd).1).map_on
  intro x hx y hy hxy
  exact joinComponentsStr_inj x y (stlForestComps_wf_elems tree hwf x hx)
    (stlForestComps_wf_elems tree hwf y hy) hxy

/-! ## Helper lemmas: output-path planning -/

theorem mem_of_getLast?_eq (l : Chars) (c : Char) (h : l.getLast? = some c) : c ∈ l := by
  rcases List.eq_nil_or_concat l with h0 | ⟨l', c', hc⟩
  · rw [h0] at h
    cases h
  · rw [hc, List.concat_eq_append, List.getLast?_concat] at h
    rw [hc, List.concat_eq_append]
    rw [Option.some.injEq] at h
    exact List.mem_append_right l' (h ▸ List.mem_cons_self c' [])

theorem head?_append_of_ne_nil (a b : Chars) (ha : a ≠ []) : (a ++ b).head? = a.head? := by
  cases a with
  | nil => exact absurd rfl ha
  | cons x xs => rfl

theorem joinCompsCh_ne_nil (ps : List Chars) (h : ∀ p ∈ ps, p ≠ [] ∧ '/' ∉ p)
    (hne : ps ≠ []) : joinCompsCh ps ≠ [] := by
  cases ps with
  | nil => exact absurd rfl hne
  | cons p rest =>
    cases rest with
    | nil =>
      rw [joinCompsCh_single]
      exact (h p (List.mem_cons_self p [])).1
    | cons q rest' =>
      rw [joinCompsCh_cons]
      intro h0
      rcases List.append_eq_nil.mp h0 with ⟨_, h2⟩
      cases h2

theorem joinCompsCh_head?_ne_slash (ps : List Chars) (h : ∀ p ∈ ps, p ≠ [] ∧ '/' ∉ p)
    (hne : ps ≠ []) : (joinCompsCh ps).head? ≠ some '/' := by
  cases ps with
  | nil => exact absurd rfl hne
  | cons p rest =>
    have hp := h p (List.mem_cons_self p rest)
    cases rest with
    | nil =>
      rw [joinCompsCh_single]
      exact fun hh => hp.2 (head?_eq_some_mem p '/' hh)
    | cons q rest' =>
      rw [joinCompsCh_cons, head?_append_of_ne_nil p _ hp.1]
      exact fun hh => hp.2 (head?_eq_some_mem p '/' hh)

theorem getLast?_append_right (a b : Chars) (hb : b ≠ []) : (a ++ b).getLast? = b.getLast? := by
  rcases List.eq_nil_or_concat b with h0 | ⟨b', c, hc⟩
  · exact absurd h0 hb
  · rw [hc, List.concat_eq_append, ← List.append_assoc, List.getLast?_concat,
      List.getLast?_concat]

theorem joinCompsCh_getLast?_ne_slash (ps : List Chars) (h : ∀ p ∈ ps, p ≠ [] ∧ '/' ∉ p)
    (hne : ps ≠ []) : (joinCompsCh ps).getLast? ≠ some '/' := by
  induction ps with
  | nil => exact absurd rfl hne
  | cons p rest ih =>
    have hp := h p (List.mem_cons_self p rest)
    cases rest with
    | nil =>
      rw [joinCompsCh_single]
      exact fun hh => hp.2 (mem_of_getLast?_eq p '/' hh)
    | cons q rest' =>
      have hr : ∀ r ∈ q :: rest', r ≠ [] ∧ '/' ∉ r :=
        fun r hr => h r (List.mem_cons_of_mem p hr)
      have hjne : joinCompsCh (q :: rest') ≠ [] := joinCompsCh_ne_nil _ hr (by simp)
      rw [joinCompsCh_cons]
      have h1 : p ++ '/' :: joinCompsCh (q :: rest') = (p ++ ['/']) ++ joinCompsCh (q :: rest') := by
        rw [List.append_assoc]
        rfl
      rw [h1, getLast?_append_right _ _ hjne]
      exact ih hr (by simp)

theorem ospJoinCh_shape (a b : Chars) (ha1 : a ≠ []) (ha2 : a.getLast? ≠ some '/')
    (hb : b.head? ≠ some '/') : ospJoinCh a b = a ++ '/' :: b := by
  rw [ospJoinCh, if_neg hb, if_neg (by rintro (h | h); exacts [ha1 h, ha2 h])]

theorem dirnameCh_ospJoin (a n : Chars) (ha1 : a ≠ []) (ha2 : a.getLast? ≠ some '/')
    (hn1 : n ≠ []) (hn2 : '/' ∉ n) : dirnameCh (ospJoinCh a n) = a := by
  rw [ospJoinCh_shape a n ha1 ha2 (head?_ne_slash n hn2)]
  exact dirnameCh_append a n ha1 ha2 hn1 hn2

theorem joinCompsCh_snoc (ps : List Chars) (f : Chars) (hne : ps ≠ []) :
    joinCompsCh (ps ++ [f]) = joinCompsCh ps ++ '/' :: f := by
  induction ps with
  | nil => exact absurd rfl hne
  | cons p rest ih =>
    cases rest with
    | nil =>
      rw [joinCompsCh_single]
      show joinCompsCh [p, f] = p ++ '/' :: f
      rw [joinCompsCh_cons, joinCompsCh_single]
    | cons q rest' =>
      have ih' := ih (by simp)
      simp only [List.cons_append] at ih'
      simp only [List.cons_append]
      rw [joinCompsCh_cons p q (rest' ++ [f]), ih', joinCompsCh_cons p q rest',
        List.append_assoc]
      rfl

/-- The directory that `os.path.join(output_directory, relative_path)` lives
in, for a relative path with components `dsC ++ [fC]`: it exists, is sane,
and its components are the output root's components followed by `dsC`. -/
theorem dirname_candidate (out : Chars) (dsC : List Chars) (fC : Chars)
    (hout1 : out ≠ []) (hout2 : out.getLast? ≠ some '/')
    (hds : ∀ d ∈ dsC, d ≠ [] ∧ '/' ∉ d) (hf : fC ≠ [] ∧ '/' ∉ fC) :
    ∃ D : Chars, dirnameCh (ospJoinCh out (joinCompsCh (dsC ++ [fC]))) = D ∧ D ≠ [] ∧
      D.getLast? ≠ some '/' ∧ componentsCh D = componentsCh out ++ dsC := by
  cases dsC with
  | nil =>
    refine ⟨out, ?_, hout1, hout2, by simp⟩
    have h1 : joinCompsCh ([] ++ [fC]) = fC := joinCompsCh_single fC
    rw [h1]
    exact dirnameCh_ospJoin out fC hout1 hout2 hf.1 hf.2
  | cons d ds' =>
    have hds0 : (d :: ds') ≠ ([] : List Chars) := by simp
    have hjne : joinCompsCh (d :: ds') ≠ [] := joinCompsCh_ne_nil _ hds hds0
    have hjh : (joinCompsCh (d :: ds')).head? ≠ some '/' :=
      joinCompsCh_head?_ne_slash _ hds hds0
    have hjl : (joinCompsCh (d :: ds')).getLast? ≠ some '/' :=
      joinCompsCh_getLast?_ne_slash _ hds hds0
    refine ⟨out ++ '/' :: joinCompsCh (d :: ds'), ?_, by simp, ?_, ?_⟩
    · rw [joinCompsCh_snoc _ fC hds0]
      have hsh : ospJoinCh out (joinCompsCh (d :: ds') ++ '/' :: fC)
          = out ++ '/' :: (joinCompsCh (d :: ds') ++ '/' :: fC) := by
        apply ospJoinCh_shape out _ hout1 hout2
        rw [head?_append_of_ne_nil _ _ hjne]
        exact hjh
      rw [hsh]
      have hassoc : out ++ '/' :: (joinCompsCh (d :: ds') ++ '/' :: fC)
          = (out ++ '/' :: joinCompsCh (d :: ds')) ++ '/' :: fC := by
        rw [List.append_assoc]
        rfl
      rw [hassoc]
      apply dirnameCh_append _ fC (by simp) _ hf.1 hf.2
      have h2 : out ++ '/' :: joinCompsCh (d :: ds')
          = (out ++ ['/']) ++ joinCompsCh (d :: ds') := by
        rw [List.append_assoc]
        rfl
      rw [h2, getLast?_append_right _ _ hjne]
      exact hjl
    · have h2 : out ++ '/' :: joinCompsCh (d :: ds')
          = (out ++ ['/']) ++ joinCompsCh (d :: ds') := by
        rw [List.append_assoc]
        rfl
      rw [h2, getLast?_append_right _ _ hjne]
      exact hjl
    · rw [componentsCh_append, componentsCh_joinComps _ hds]

theorem data_ne_nil (s : String) (h : s ≠ "") : s.data ≠ [] :=
  fun h0 => h (String.ext h0)

theorem splitextStr_recomb (f : String) : (splitextStr f).1 ++ (splitextStr f).2 = f := by
  apply String.ext
  rw [String.data_append]
  exact splitextCh_recomb f.data

theorem newBaseFileName_data (pre app : Option String) (f : String) :
    (newBaseFileName pre app f).data =
      (pre.getD "").data ++ ((splitextCh f.data).1 ++
        ((app.getD "").data ++ (splitextCh f.data).2)) := by
  cases pre <;> cases app <;>
    simp [newBaseFileName, splitextStr, String.data_append]

theorem newBaseFileName_wf (pre app : Option String) (f : String)
    (hf : f.data ≠ [] ∧ '/' ∉ f.data)
    (hpre : ∀ p, pre = some p → '/' ∉ p.data)
    (happ : ∀ a, app = some a → '/' ∉ a.data) :
    (newBaseFileName pre app f).data ≠ [] ∧ '/' ∉ (newBaseFileName pre app f).data := by
  have hrec : (splitextCh f.data).1 ++ (splitextCh f.data).2 = f.data := splitextCh_recomb f.data
  have hb : '/' ∉ (splitextCh f.data).1 := fun hm => hf.2 (hrec ▸ List.mem_append_left _ hm)
  have he : '/' ∉ (splitextCh f.data).2 := fun hm => hf.2 (hrec ▸ List.mem_append_right _ hm)
  have hpd : '/' ∉ (pre.getD "").data := by
    cases pre with
    | none => simp
    | some p => exact hpre p rfl
  have had : '/' ∉ (app.getD "").data := by
    cases app with
    | none => simp
    | some a => exact happ a rfl
  rw [newBaseFileName_data]
  constructor
  · intro h0
    rcases List.append_eq_nil.mp h0 with ⟨_, h2⟩
    rcases List.append_eq_nil.mp h2 with ⟨h3, h4⟩
    rcases List.append_eq_nil.mp h4 with ⟨_, h6⟩
    apply hf.1
    rw [← hrec, h3, h6]
    rfl
  · intro hm
    rcases List.mem_append.mp hm with hm | hm
    · exact hpd hm
    rcases List.mem_append.mp hm with hm | hm
    · exact hb hm
    rcases List.mem_append.mp hm with hm | hm
    · exact had hm
    · exact he hm

/-- C4 (amended): provided the prepend and append strings contain no path
separator, the renamed output path sits in exactly the directory of the
un-renamed candidate `join(output_root, relative_path)`, whose components are
the output root's components followed by the file's directory components —
the naming rule changes only the final filename component. -/
theorem c4_output_dir_mirrors (cfg : Config) (root filename : String) (ds : List String)
    (hout1 : cfg.output_directory ≠ "")
    (hout2 : cfg.output_directory.data.getLast? ≠ some '/')
    (hf : filename.data ≠ [] ∧ '/' ∉ filename.data)
    (hds : ∀ d ∈ ds, d.data ≠ [] ∧ '/' ∉ d.data)
    (hpre : ∀ p, cfg.prepend_str = some p → '/' ∉ p.data)
    (happ : ∀ a, cfg.append_str = some a → '/' ∉ a.data)
    (hrel : relpathStr (ospJoin root filename) cfg.input_directory
      = joinComponentsStr (ds ++ [filename])) :
    dirnameStr (plannedOutputPath cfg root filename)
      = dirnameStr (plannedCandidatePath cfg root filename)
    ∧ componentsStr (dirnameStr (plannedOutputPath cfg root filename))
      = componentsStr cfg.output_directory ++ ds := by
  have hcand : (plannedCandidatePath cfg root filename).data
      = ospJoinCh cfg.output_directory.data
          (joinCompsCh (ds.map String.data ++ [filename.data])) := by
    show (ospJoin cfg.output_directory
        (relpathStr (ospJoin root filename) cfg.input_directory)).data = _
    rw [hrel]
    show ospJoinCh cfg.output_directory.data (joinCompsCh ((ds ++ [filename]).map String.data)) = _
    rw [List.map_append]
    rfl
  have hdsC : ∀ dC ∈ ds.map String.data, dC ≠ [] ∧ '/' ∉ dC := by
    intro dC hdC
    rcases List.mem_map.mp hdC with ⟨d, hd, heq⟩
    exact heq ▸ hds d hd
  rcases dirname_candidate cfg.output_directory.data (ds.map String.data) filename.data
      (data_ne_nil _ hout1) hout2 hdsC hf with ⟨D, hD, hD1, hD2, hD3⟩
  have hcanddir : (dirnameStr (plannedCandidatePath cfg root filename)).data = D := by
    show dirnameCh (plannedCandidatePath cfg root filename).data = D
    rw [hcand]
    exact hD
  have hnn := newBaseFileName_wf cfg.prepend_str cfg.append_str filename hf hpre happ
  have hplanned : (dirnameStr (plannedOutputPath cfg root filename)).data = D := by
    show dirnameCh (plannedOutputPath cfg root filename).data = D
    have hout : (plannedOutputPath cfg root filename).data
        = ospJoinCh (dirnameStr (plannedCandidatePath cfg root filename)).data
            (newBaseFileName cfg.prepend_str cfg.append_str filename).data := rfl
    rw [hout, hcanddir, dirnameCh_ospJoin D _ hD1 hD2 hnn.1 hnn.2]
  constructor
  · apply String.ext
    rw [hplanned, hcanddir]
  · show ((componentsCh (dirnameStr (plannedOutputPath cfg root filename)).data).map
        (fun l => (⟨l⟩ : String)))
      = componentsStr cfg.output_directory ++ ds
    rw [hplanned, hD3, List.map_append]
    congr 1
    rw [List.map_map]
    exact List.map_id ds

/-- C4 counterexample: with prepend string `"a/"` (a naming rule the claim
quantifies over), the file `f.stl` at the top of the input tree is written to
`out/a/f.stl`, i.e. into directory `out/a`, not into the directory `out`
obtained by joining the output root with the file's directory-relative
path. -/
theorem c4_counterexample :
    plannedOutputPath slashPrependCfg "in" "f.stl" = "out/a/f.stl"
    ∧ dirnameStr (plannedOutputPath slashPrependCfg "in" "f.stl") = "out/a"
    ∧ dirnameStr (plannedCandidatePath slashPrependCfg "in" "f.stl") = "out"
    ∧ (("out/a" : String) = "out") = False := by
  refine ⟨by decide, by decide, by decide, eq_false (by decide)⟩

theorem c4_output_dir_mirrors_witness :
    copyDimsCfg.output_directory ≠ ""
    ∧ relpathStr (ospJoin "in/sub" "part.stl") copyDimsCfg.input_directory
        = joinComponentsStr (["sub"] ++ ["part.stl"])
    ∧ dirnameStr (plannedOutputPath copyDimsCfg "in/sub" "part.stl")
        = dirnameStr (plannedCandidatePath copyDimsCfg "in/sub" "part.stl")
    ∧ componentsStr (dirnameStr (plannedOutputPath copyDimsCfg "in/sub" "part.stl"))
        = componentsStr copyDimsCfg.output_directory ++ ["sub"] := by
  have h := c4_output_dir_mirrors copyDimsCfg "in/sub" "part.stl" ["sub"]
    (by decide) (by decide) (by decide)
    (by
      intro d hd
      rw [List.mem_singleton] at hd
      subst hd
      exact ⟨by decide, by decide⟩)
    (by intro p hp; cases hp) (by intro a ha; cases ha) (by decide)
  exact ⟨by decide, by decide, h.1, h.2⟩

/-! ## Helper lemmas: the flat traversal -/

theorem discoverFlat_filenames (inp : String) (tree : List Entry) :
    (discoverFlat inp tree).map Discovered.filename
      = (listdirNames tree).filter (fun n => pyEndswith n ".stl") := by
  rw [discoverFlat, List.map_map]
  exact List.map_id _

theorem discoverFlat_roots (inp : String) (tree : List Entry) :
    ∀ d ∈ discoverFlat inp tree, d.root = inp := by
  intro d hd
  rcases List.mem_map.mp hd with ⟨n, _, he⟩
  rw [← he]

theorem listdir_filter_eq_stlNames (tree : List Entry)
    (h : ∀ e ∈ tree, Entry.isDirB e = true → pyEndswith e.entryName ".stl" = false) :
    (listdirNames tree).filter (fun n => pyEndswith n ".stl") = stlNamesHere tree := by
  induction tree with
  | nil => rfl
  | cons e rest ih =>
    have hrest := ih (fun e' he' => h e' (List.mem_cons_of_mem e he'))
    cases e with
    | file n c =>
      show ((n :: listdirNames rest).filter (fun m => pyEndswith m ".stl"))
        = (((n, c) :: fileEntries rest).map Prod.fst).filter (fun m => pyEndswith m ".stl")
      rw [List.map_cons, List.filter_cons, List.filter_cons]
      rw [stlNamesHere] at hrest
      by_cases hn : pyEndswith n ".stl"
      · simp only [hn, if_true, hrest]
      · simp only [hn, Bool.false_eq_true, if_false, hrest]
    | dir n sub =>
      have hd : pyEndswith n ".stl" = false := h _ (List.mem_cons_self _ _) rfl
      show ((n :: listdirNames rest).filter (fun m => pyEndswith m ".stl"))
        = ((fileEntries rest).map Prod.fst).filter (fun m => pyEndswith m ".stl")
      rw [List.filter_cons]
      rw [stlNamesHere] at hrest
      simp only [hd, Bool.false_eq_true, if_false, hrest]

/-- C3: in non-recursive mode the processed candidates are exactly the
direct children of the input root whose names end in `.stl` (never anything
from a subdirectory; an input root without such children gives an empty
traversal, not an error), and — when every `.stl`-named direct entry is a
regular file — exactly the direct-child files with that suffix.  In
recursive mode, the relative paths (computed against the input root) of the
traversal are exactly the relative paths of every `.stl` file in the full
subtree, in top-down order, and — sibling names being distinct — each such
file is visited exactly once. -/
theorem c3_traversal :
    (∀ (inp : String) (tree : List Entry),
        (discoverFlat inp tree).map Discovered.filename
          = (listdirNames tree).filter (fun n => pyEndswith n ".stl")
        ∧ (∀ d ∈ discoverFlat inp tree, d.root = inp)
        ∧ ((∀ e ∈ tree, Entry.isDirB e = true → pyEndswith e.entryName ".stl" = false) →
            (discoverFlat inp tree).map Discovered.filename = stlNamesHere tree)
        ∧ ((listdirNames tree).filter (fun n => pyEndswith n ".stl") = [] →
            discoverFlat inp tree = []))
    ∧ (∀ (cfg : Config) (tree : List Entry),
        discoverFiles cfg tree
          = if cfg.recursive then discoverWalk cfg.input_directory tree
            else discoverFlat cfg.input_directory tree)
    ∧ (∀ (inp : String) (tree : List Entry), wfForest tree = true →
        (discoverWalk inp tree).map (fun d => relpathStr (ospJoin d.root d.filename) inp)
          = (stlForestComps tree).map joinComponentsStr)
    ∧ (∀ tree : List Entry, wfForest tree = true → nodupTree tree = true →
        ((stlForestComps tree).map joinComponentsStr).Nodup) := by
  refine ⟨?_, ?_, ?_, ?_⟩
  · intro inp tree
    refine ⟨discoverFlat_filenames inp tree, discoverFlat_roots inp tree, ?_, ?_⟩
    · intro h
      rw [discoverFlat_filenames inp tree]
      exact listdir_filter_eq_stlNames tree h
    · intro h
      have h2 := discoverFlat_filenames inp tree
      rw [h] at h2
      exact List.map_eq_nil_iff.mp h2
  · intro cfg tree
    rfl
  · intro inp tree hwf
    exact discoverWalk_relpaths tree inp hwf
  · intro tree hwf hnd
    exact stlForestComps_paths_nodup tree hwf hnd

theorem c3_traversal_witness :
    wfForest nestedTree = true
    ∧ nodupTree nestedTree = true
    ∧ (discoverWalk "in" nestedTree).map (fun d => relpathStr (ospJoin d.root d.filename) "in")
        = (stlForestComps nestedTree).map joinComponentsStr
    ∧ ((stlForestComps nestedTree).map joinComponentsStr).Nodup :=
  ⟨by decide, by decide,
   c3_traversal.2.2.1 "in" nestedTree (by decide),
   c3_traversal.2.2.2 nestedTree (by decide) (by decide)⟩

/-! ## Helper lemmas: bounding boxes and formatting -/

theorem map_ne_nil {α β : Type} (f : α → β) (l : List α) (h : l ≠ []) : l.map f ≠ [] :=
  fun h0 => h (List.map_eq_nil_iff.mp h0)

theorem postScale_getD (d : Vec3) (rf : Option ℚ) :
    postScale d rf = ⟨d.x * rf.getD 1, d.y * rf.getD 1, d.z * rf.getD 1⟩ := by
  cases rf <;> rfl

theorem get_oriented_bounding_box_nonneg (eig : EigFn) (obj : SceneObj)
    (hv : obj.verts ≠ []) :
    0 ≤ (get_oriented_bounding_box eig obj).x
    ∧ 0 ≤ (get_oriented_bounding_box eig obj).y
    ∧ 0 ≤ (get_oriented_bounding_box eig obj).z := by
  have hw : worldVerts obj ≠ [] := map_ne_nil _ _ hv
  rw [get_oriented_bounding_box]
  refine ⟨?_, ?_, ?_⟩ <;>
    exact sub_nonneg.mpr (npMinQ_le_npMaxQ _ (map_ne_nil _ _ (map_ne_nil _ _ hw)))

theorem formatFixed3_two : formatFixed3 2 = "2.000" := by
  norm_num [formatFixed3, roundHalfToEven, padThree]
  decide

theorem formatFixed3_one : formatFixed3 1 = "1.000" := by
  norm_num [formatFixed3, roundHalfToEven, padThree]
  decide

theorem formatFixed3_neg_two : formatFixed3 (-2) = "-2.000" := by
  norm_num [formatFixed3, roundHalfToEven, padThree]
  decide

/-- C1: with the axis-aligned dimension method, the computed extents are
exactly the per-axis max − min of the object's local vertex coordinates,
multiplied post hoc by the resize factor when one was given (by 1 when not);
in particular the unit cube with resize factor 2.0 measures (2,2,2) and is
reported as `2.000, 2.000, 2.000`. -/
theorem c1_axis_aligned_extents :
    (∀ (eig : EigFn) (rf : Option ℚ) (obj : SceneObj), obj.verts ≠ [] →
      ∃ lo hi : Vec3,
        (∀ v ∈ obj.verts, lo.x ≤ v.x ∧ v.x ≤ hi.x ∧ lo.y ≤ v.y ∧ v.y ≤ hi.y ∧
          lo.z ≤ v.z ∧ v.z ≤ hi.z)
        ∧ lo.x ∈ obj.verts.map Vec3.x ∧ hi.x ∈ obj.verts.map Vec3.x
        ∧ lo.y ∈ obj.verts.map Vec3.y ∧ hi.y ∈ obj.verts.map Vec3.y
        ∧ lo.z ∈ obj.verts.map Vec3.z ∧ hi.z ∈ obj.verts.map Vec3.z
        ∧ chooseDimensions eig "axis-aligned" rf obj =
            ⟨(hi.x - lo.x) * rf.getD 1, (hi.y - lo.y) * rf.getD 1, (hi.z - lo.z) * rf.getD 1⟩)
    ∧ chooseDimensions trivialEig "axis-aligned" (some 2) unitCubeObj = ⟨2, 2, 2⟩
    ∧ formatDimensionLine "cube.stl"
        (chooseDimensions trivialEig "axis-aligned" (some 2) unitCubeObj)
        = "cube.stl: 2.000, 2.000, 2.000" := by
  have hcube : chooseDimensions trivialEig "axis-aligned" (some 2) unitCubeObj = ⟨2, 2, 2⟩ := by
    rw [chooseDimensions_not_obb _ _ _ _ (by decide)]
    norm_num [postScale, get_axis_aligned_bounding_box, unitCubeObj, cubeVerts,
      npMaxQ, npMinQ, List.foldl, max_def, min_def]
  refine ⟨?_, hcube, ?_⟩
  · intro eig rf obj hv
    refine ⟨⟨npMinQ (obj.verts.map Vec3.x), npMinQ (obj.verts.map Vec3.y),
        npMinQ (obj.verts.map Vec3.z)⟩,
      ⟨npMaxQ (obj.verts.map Vec3.x), npMaxQ (obj.verts.map Vec3.y),
        npMaxQ (obj.verts.map Vec3.z)⟩, ?_, ?_, ?_, ?_, ?_, ?_, ?_, ?_⟩
    · intro v hvm
      exact ⟨npMinQ_le _ _ (List.mem_map_of_mem Vec3.x hvm),
        le_npMaxQ _ _ (List.mem_map_of_mem Vec3.x hvm),
        npMinQ_le _ _ (List.mem_map_of_mem Vec3.y hvm),
        le_npMaxQ _ _ (List.mem_map_of_mem Vec3.y hvm),
        npMinQ_le _ _ (List.mem_map_of_mem Vec3.z hvm),
        le_npMaxQ _ _ (List.mem_map_of_mem Vec3.z hvm)⟩
    · exact npMinQ_mem _ (map_ne_nil _ _ hv)
    · exact npMaxQ_mem _ (map_ne_nil _ _ hv)
    · exact npMinQ_mem _ (map_ne_nil _ _ hv)
    · exact npMaxQ_mem _ (map_ne_nil _ _ hv)
    · exact npMinQ_mem _ (map_ne_nil _ _ hv)
    · exact npMaxQ_mem _ (map_ne_nil _ _ hv)
    · rw [chooseDimensions_not_obb _ _ _ _ (by decide), postScale_getD]
      rfl
  · rw [hcube, formatDimensionLine]
    show "cube.stl" ++ ": " ++ formatFixed3 2 ++ ", " ++ formatFixed3 2 ++ ", " ++ formatFixed3 2
      = "cube.stl: 2.000, 2.000, 2.000"
    rw [formatFixed3_two]
    decide

theorem c1_axis_aligned_extents_witness :
    unitCubeObj.verts ≠ [] ∧
    ∃ lo hi : Vec3,
      (∀ v ∈ unitCubeObj.verts, lo.x ≤ v.x ∧ v.x ≤ hi.x ∧ lo.y ≤ v.y ∧ v.y ≤ hi.y ∧
        lo.z ≤ v.z ∧ v.z ≤ hi.z)
      ∧ lo.x ∈ unitCubeObj.verts.map Vec3.x ∧ hi.x ∈ unitCubeObj.verts.map Vec3.x
      ∧ lo.y ∈ unitCubeObj.verts.map Vec3.y ∧ hi.y ∈ unitCubeObj.verts.map Vec3.y
      ∧ lo.z ∈ unitCubeObj.verts.map Vec3.z ∧ hi.z ∈ unitCubeObj.verts.map Vec3.z
      ∧ chooseDimensions trivialEig "axis-aligned" (some 2) unitCubeObj =
          ⟨(hi.x - lo.x) * (some (2:ℚ)).getD 1, (hi.y - lo.y) * (some (2:ℚ)).getD 1,
            (hi.z - lo.z) * (some (2:ℚ)).getD 1⟩ :=
  ⟨by decide, c1_axis_aligned_extents.1 trivialEig (some 2) unitCubeObj (by decide)⟩

/-- C2 (amended): the CLI accepts exactly the method strings `"obb"` and
`"axis-aligned"` (default `"axis-aligned"`); the spec's name `"oriented"` is
not a valid selector.  When `dimension_method = "obb"` the extents come from
the PCA oriented-bounding-box pipeline `get_oriented_bounding_box`; any other
string falls to the axis-aligned branch with its post-hoc resize scaling. -/
theorem c2_dimension_method_dispatch :
    dimensionMethodChoices = ["obb", "axis-aligned"]
    ∧ dimensionMethodDefault = "axis-aligned"
    ∧ parseDimensionMethod "oriented" = none
    ∧ (∀ (eig : EigFn) (rf : Option ℚ) (obj : SceneObj),
        chooseDimensions eig "obb" rf obj = get_oriented_bounding_box eig obj)
    ∧ (∀ (eig : EigFn) (m : String) (rf : Option ℚ) (obj : SceneObj), m ≠ "obb" →
        chooseDimensions eig m rf obj = postScale (get_axis_aligned_bounding_box obj) rf) :=
  ⟨rfl, rfl, by decide, chooseDimensions_obb, chooseDimensions_not_obb⟩

theorem c2_dimension_method_dispatch_witness :
    ("oriented" : String) ≠ "obb"
    ∧ chooseDimensions slantEig "oriented" none slantObj
        = postScale (get_axis_aligned_bounding_box slantObj) none :=
  ⟨by decide, c2_dimension_method_dispatch.2.2.2.2 slantEig "oriented" none slantObj (by decide)⟩

/-- C2 counterexample: the string `"oriented"` is not an accepted selector,
and — even fed directly to the dispatch — it selects the axis-aligned branch:
on two vertices spanning `(3,4,0)` it yields extents `(3,4,0)`, while the PCA
oriented-bounding-box pipeline yields `(5,0,0)`. -/
theorem c2_counterexample :
    (dimensionMethodChoices.contains "oriented") = false
    ∧ chooseDimensions slantEig "oriented" none slantObj = ⟨3, 4, 0⟩
    ∧ get_oriented_bounding_box slantEig slantObj = ⟨5, 0, 0⟩
    ∧ ((⟨3, 4, 0⟩ : Vec3) = ⟨5, 0, 0⟩) = False := by
  refine ⟨by decide, ?_, ?_, eq_false (by decide)⟩
  · rw [chooseDimensions_not_obb _ _ _ _ (by decide)]
    norm_num [postScale, get_axis_aligned_bounding_box, slantObj, slantVerts,
      npMaxQ, npMinQ, List.foldl, max_def, min_def]
  · norm_num [get_oriented_bounding_box, slantEig, slantObj, slantVerts, worldVerts, covMatrixQ,
      argsortDesc, insertByKey, npMaxQ, npMinQ, sum3, nthV, List.foldl, List.foldr,
      max_def, min_def, Fin.ext_iff]

/-- C9 (amended): every extent is non-negative provided the resize factor,
when one was given, is non-negative (the oriented branch needs no such
hypothesis). -/
theorem c9_extents_nonneg (eig : EigFn) (m : String) (rf : Option ℚ) (obj : SceneObj)
    (hv : obj.verts ≠ []) (hrf : ∀ f, rf = some f → 0 ≤ f) :
    0 ≤ (chooseDimensions eig m rf obj).x
    ∧ 0 ≤ (chooseDimensions eig m rf obj).y
    ∧ 0 ≤ (chooseDimensions eig m rf obj).z := by
  by_cases hm : m = "obb"
  · subst hm
    rw [chooseDimensions_obb]
    exact get_oriented_bounding_box_nonneg eig obj hv
  · rw [chooseDimensions_not_obb _ _ _ _ hm, postScale_getD]
    have hf : 0 ≤ rf.getD 1 := by
      cases rf with
      | none => norm_num
      | some f => exact hrf f rfl
    refine ⟨?_, ?_, ?_⟩ <;>
      exact mul_nonneg (sub_nonneg.mpr (npMinQ_le_npMaxQ _ (map_ne_nil _ _ hv))) hf

theorem c9_extents_nonneg_witness :
    unitCubeObj.verts ≠ []
    ∧ 0 ≤ (chooseDimensions trivialEig "axis-aligned" (some 2) unitCubeObj).x
    ∧ 0 ≤ (chooseDimensions trivialEig "axis-aligned" (some 2) unitCubeObj).y
    ∧ 0 ≤ (chooseDimensions trivialEig "axis-aligned" (some 2) unitCubeObj).z :=
  ⟨by decide,
   (c9_extents_nonneg trivialEig "axis-aligned" (some 2) unitCubeObj (by decide)
      (by intro f hf; cases hf; norm_num)).1,
   (c9_extents_nonneg trivialEig "axis-aligned" (some 2) unitCubeObj (by decide)
      (by intro f hf; cases hf; norm_num)).2.1,
   (c9_extents_nonneg trivialEig "axis-aligned" (some 2) unitCubeObj (by decide)
      (by intro f hf; cases hf; norm_num)).2.2⟩

/-! ## Helper lemmas: concrete run evaluations -/

theorem discover_copydims :
    discoverFiles copyDimsCfg brokenThenGoodTree
      = [⟨"in", "broken.stl", none⟩, ⟨"in", "good.stl", some cubeVerts⟩] := by
  decide

theorem dims_copy_cube : dimensionsFor trivialHost copyDimsCfg cubeVerts = ⟨1, 1, 1⟩ := by
  have h : dimensionsFor trivialHost copyDimsCfg cubeVerts
      = chooseDimensions trivialHost.eig "axis-aligned" none ⟨cubeVerts, 1⟩ := rfl
  rw [h, chooseDimensions_not_obb _ _ _ _ (by decide)]
  norm_num [postScale, get_axis_aligned_bounding_box, cubeVerts, npMaxQ, npMinQ,
    List.foldl, max_def, min_def]

theorem line_good : formatDimensionLine "good.stl" ⟨1, 1, 1⟩
    = "good.stl: 1.000, 1.000, 1.000" := by
  rw [formatDimensionLine]
  show "good.stl" ++ ": " ++ formatFixed3 1 ++ ", " ++ formatFixed3 1 ++ ", " ++ formatFixed3 1 = _
  rw [formatFixed3_one]
  decide

theorem accumulated_copydims :
    accumulatedLines trivialHost copyDimsCfg brokenThenGoodTree
      = ["good.stl: 1.000, 1.000, 1.000"] := by
  rw [accumulatedLines_eq, discover_copydims]
  show (successfulOf [⟨"in", "broken.stl", none⟩, ⟨"in", "good.stl", some cubeVerts⟩]).map _ = _
  have hs : successfulOf [(⟨"in", "broken.stl", none⟩ : Discovered),
      ⟨"in", "good.stl", some cubeVerts⟩] = [⟨"in", "good.stl", some cubeVerts⟩] := by decide
  rw [hs, List.map_cons, List.map_nil]
  show [formatDimensionLine "good.stl" (dimensionsFor trivialHost copyDimsCfg cubeVerts)] = _
  rw [dims_copy_cube, line_good]

/-! ## The remaining claim theorems -/

/-- C7 evidence (code bug): in a copy-only run over a corrupt STL followed by
a valid one, the run completes — the corrupt file yields no output and no
report entry, and the next file is still processed — but nothing is printed
for the skipped file (stdout is just `Done.`): the `if
bpy.context.selected_objects:` in `process_and_write_dimensions` has no
`else`.  The skip diagnostic the spec promises exists only inside
`process_stl`, which this flow never reaches with a failed import. -/
theorem c7_silent_skip :
    (process_and_write_dimensions trivialHost copyDimsCfg brokenThenGoodTree).printed = ["Done."]
    ∧ (process_and_write_dimensions trivialHost copyDimsCfg brokenThenGoodTree).outputs
        = [("out/good.stl", OutFile.copied cubeVerts)]
    ∧ accumulatedLines trivialHost copyDimsCfg brokenThenGoodTree
        = ["good.stl: 1.000, 1.000, 1.000"]
    ∧ (process_and_write_dimensions trivialHost copyDimsCfg brokenThenGoodTree).report
        = some ("out/dimensions.txt", "good.stl: 1.000, 1.000, 1.000")
    ∧ (process_stl trivialHost none "in/broken.stl" "out/broken.stl" none none).2
        = ["Skipping in/broken.stl: No valid mesh data found."] := by
  refine ⟨run_printed_eq trivialHost copyDimsCfg brokenThenGoodTree, ?_, accumulated_copydims,
    ?_, by decide⟩
  · rw [run_outputs_eq, discover_copydims]
    decide
  · rw [run_report_eq, accumulated_copydims]
    decide

/-- C5: the dimension report is written at most once — modelled as the
optional report value produced after the whole traversal — and it is written
iff the dimensions flag was passed and at least one line accumulated; it goes
to `<output_root>/dimensions.txt` as a single overwriting write of the lines
joined by newlines. -/
theorem c5_report_guard (host : Host) (cfg : Config) (tree : List Entry) :
    ((process_and_write_dimensions host cfg tree).report = none
      ↔ ¬(cfg.dimensions_flag = true ∧ accumulatedLines host cfg tree ≠ []))
    ∧ (cfg.dimensions_flag = true → accumulatedLines host cfg tree ≠ [] →
        (process_and_write_dimensions host cfg tree).report
          = some (ospJoin cfg.output_directory "dimensions.txt",
              String.intercalate "\n" (accumulatedLines host cfg tree))) := by
  have hiff : (cfg.dimensions_flag && !(accumulatedLines host cfg tree).isEmpty) = true
      ↔ (cfg.dimensions_flag = true ∧ accumulatedLines host cfg tree ≠ []) := by
    rw [Bool.and_eq_true, Bool.not_eq_true']
    constructor
    · rintro ⟨h1, h2⟩
      refine ⟨h1, ?_⟩
      intro h0
      rw [h0] at h2
      cases h2
    · rintro ⟨h1, h2⟩
      refine ⟨h1, ?_⟩
      cases hc : accumulatedLines host cfg tree with
      | nil => exact absurd hc h2
      | cons a l => rfl
  constructor
  · rw [run_report_eq]
    by_cases hc : cfg.dimensions_flag = true ∧ accumulatedLines host cfg tree ≠ []
    · rw [if_pos (hiff.mpr hc)]
      simp [hc]
    · rw [if_neg (fun hb => hc (hiff.mp hb))]
      simp [hc]
  · intro h1 h2
    rw [run_report_eq, if_pos (hiff.mpr ⟨h1, h2⟩)]

theorem c5_report_guard_witness :
    copyDimsCfg.dimensions_flag = true
    ∧ accumulatedLines trivialHost copyDimsCfg brokenThenGoodTree ≠ []
    ∧ (process_and_write_dimensions trivialHost copyDimsCfg brokenThenGoodTree).report
        = some (ospJoin copyDimsCfg.output_directory "dimensions.txt",
            String.intercalate "\n" (accumulatedLines trivialHost copyDimsCfg brokenThenGoodTree)) :=
  ⟨rfl, by rw [accumulated_copydims]; decide,
   (c5_report_guard trivialHost copyDimsCfg brokenThenGoodTree).2 rfl
     (by rw [accumulated_copydims]; decide)⟩

/-- C6: with the dimensions flag set and at least one successfully imported
file, the report holds exactly one line per successfully imported file, in
discovery order, each formatted `"{filename}: {dx:.3f}, {dy:.3f}, {dz:.3f}"`
from the original filename; with the flag unset, no report file is created at
all. -/
theorem c6_report_lines :
    (∀ (host : Host) (cfg : Config) (tree : List Entry),
        cfg.dimensions_flag = true → successfulOf (discoverFiles cfg tree) ≠ [] →
        (process_and_write_dimensions host cfg tree).report
          = some (ospJoin cfg.output_directory "dimensions.txt",
              String.intercalate "\n"
                ((successfulOf (discoverFiles cfg tree)).map
                  (fun d => formatDimensionLine d.filename
                    (dimensionsFor host cfg (d.content.getD []))))))
    ∧ (∀ (host : Host) (cfg : Config) (tree : List Entry),
        cfg.dimensions_flag = false →
        (process_and_write_dimensions host cfg tree).report = none) := by
  constructor
  · intro host cfg tree hflag hne
    rw [run_report_eq, accumulatedLines_eq, hflag]
    have hmapne := map_ne_nil
      (fun d => formatDimensionLine d.filename (dimensionsFor host cfg (d.content.getD [])))
      (successfulOf (discoverFiles cfg tree)) hne
    have hEmp : ((successfulOf (discoverFiles cfg tree)).map
        (fun d => formatDimensionLine d.filename
          (dimensionsFor host cfg (d.content.getD [])))).isEmpty = false := by
      cases hc : (successfulOf (discoverFiles cfg tree)).map
          (fun d => formatDimensionLine d.filename (dimensionsFor host cfg (d.content.getD []))) with
      | nil => exact absurd hc hmapne
      | cons a l => rfl
    rw [hEmp]
    rfl
  · intro host cfg tree hflag
    rw [run_report_eq, hflag]
    rfl

theorem c6_report_lines_witness :
    copyDimsCfg.dimensions_flag = true
    ∧ successfulOf (discoverFiles copyDimsCfg brokenThenGoodTree) ≠ []
    ∧ (process_and_write_dimensions trivialHost copyDimsCfg brokenThenGoodTree).report
        = some (ospJoin copyDimsCfg.output_directory "dimensions.txt",
            String.intercalate "\n"
              ((successfulOf (discoverFiles copyDimsCfg brokenThenGoodTree)).map
                (fun d => formatDimensionLine d.filename
                  (dimensionsFor trivialHost copyDimsCfg (d.content.getD [])))))
    ∧ slashPrependCfg.dimensions_flag = false
    ∧ (process_and_write_dimensions trivialHost slashPrependCfg brokenThenGoodTree).report
        = none :=
  ⟨rfl, by rw [discover_copydims]; decide,
   c6_report_lines.1 trivialHost copyDimsCfg brokenThenGoodTree rfl
     (by rw [discover_copydims]; decide),
   rfl,
   c6_report_lines.2 trivialHost slashPrependCfg brokenThenGoodTree rfl⟩

/-- C9 counterexample: the CLI does not validate `--resize`; with resize
factor −2 the axis-aligned extents of the unit cube come out as (−2,−2,−2) —
negative — and the report records `-2.000, -2.000, -2.000`. -/
theorem c9_counterexample :
    dimensionsFor trivialHost negativeResizeCfg cubeVerts = ⟨-2, -2, -2⟩
    ∧ ((-2 : ℚ) < 0)
    ∧ (process_and_write_dimensions trivialHost negativeResizeCfg cubeOnlyTree).report
        = some (ospJoin "out" "dimensions.txt", "cube.stl: -2.000, -2.000, -2.000") := by
  have hdims : dimensionsFor trivialHost negativeResizeCfg cubeVerts = ⟨-2, -2, -2⟩ := by
    have h : dimensionsFor trivialHost negativeResizeCfg cubeVerts
        = chooseDimensions trivialHost.eig "axis-aligned" (some (-2)) ⟨cubeVerts, -2⟩ := rfl
    rw [h, chooseDimensions_not_obb _ _ _ _ (by decide)]
    norm_num [postScale, get_axis_aligned_bounding_box, cubeVerts, npMaxQ, npMinQ,
      List.foldl, max_def, min_def]
  have hline : formatDimensionLine "cube.stl" ⟨-2, -2, -2⟩
      = "cube.stl: -2.000, -2.000, -2.000" := by
    rw [formatDimensionLine]
    show "cube.stl" ++ ": " ++ formatFixed3 (-2) ++ ", " ++ formatFixed3 (-2) ++ ", "
      ++ formatFixed3 (-2) = _
    rw [formatFixed3_neg_two]
    decide
  refine ⟨hdims, by norm_num, ?_⟩
  have hd : discoverFiles negativeResizeCfg cubeOnlyTree
      = [⟨"in", "cube.stl", some cubeVerts⟩] := by decide
  have hl : accumulatedLines trivialHost negativeResizeCfg cubeOnlyTree
      = ["cube.stl: -2.000, -2.000, -2.000"] := by
    rw [accumulatedLines_eq, hd]
    have hs : successfulOf [(⟨"in", "cube.stl", some cubeVerts⟩ : Discovered)]
        = [⟨"in", "cube.stl", some cubeVerts⟩] := by decide
    rw [hs, List.map_cons, List.map_nil]
    show [formatDimensionLine "cube.stl" (dimensionsFor trivialHost negativeResizeCfg cubeVerts)]
      = _
    rw [hdims, hline]
  rw [run_report_eq, hl]
  decide

/-- C10: the dimensions flag gates only whether `dimensions.txt` is written —
the written STL outputs and the printed lines are identical between the two
runs, the dimension lines are still computed and accumulated in memory for
every successfully imported file even with the flag off, and with the flag
off the report is never produced. -/
theorem c10_flag_only_gates_report (host : Host) (cfg : Config) (tree : List Entry) :
    (process_and_write_dimensions host (setDimensionsFlag cfg true) tree).outputs
      = (process_and_write_dimensions host (setDimensionsFlag cfg false) tree).outputs
    ∧ (process_and_write_dimensions host (setDimensionsFlag cfg true) tree).printed
      = (process_and_write_dimensions host (setDimensionsFlag cfg false) tree).printed
    ∧ accumulatedLines host (setDimensionsFlag cfg false) tree
      = accumulatedLines host (setDimensionsFlag cfg true) tree
    ∧ accumulatedLines host (setDimensionsFlag cfg false) tree
      = (successfulOf (discoverFiles (setDimensionsFlag cfg false) tree)).map
          (fun d => formatDimensionLine d.filename
            (dimensionsFor host (setDimensionsFlag cfg false) (d.content.getD [])))
    ∧ (process_and_write_dimensions host (setDimensionsFlag cfg false) tree).report = none := by
  refine ⟨rfl, ?_, rfl, accumulatedLines_eq host (setDimensionsFlag cfg false) tree, ?_⟩
  · rw [run_printed_eq, run_printed_eq]
  · rw [run_report_eq]
    rfl

/-- C8: the output base name is `(prepend or "") + base + (append or "")`
with the original extension appended unchanged after it; splitting is exactly
`os.path.splitext`, whose two parts recombine to the original filename.  In
particular `part.stl` with prepend `"lp_"` and append `"_v2"` becomes
`lp_part_v2.stl`. -/
theorem c8_naming_rule :
    (∀ (pre app : Option String) (filename : String),
        newBaseFileName pre app filename
          = (pre.getD "") ++ (splitextStr filename).1 ++ (app.getD "")
            ++ (splitextStr filename).2)
    ∧ (∀ filename : String, (splitextStr filename).1 ++ (splitextStr filename).2 = filename)
    ∧ newBaseFileName (some "lp_") (some "_v2") "part.stl" = "lp_part_v2.stl" := by
  refine ⟨?_, splitextStr_recomb, by decide⟩
  intro pre app filename
  cases pre <;> cases app <;>
    (apply String.ext
     simp [newBaseFileName, splitextStr, String.data_append])
